import Mathlib

/-!
Verification development for the flow-go sparse Merkle trie forest
(`storage/ledger/mtrie`), the ChaCha20-based PRG (`crypto/random/chacha20.go`)
and the storage-fees ledger migration
(`cmd/util/ledger/migrations/storage-fees-migration.go`).

The mtrie implementation itself is not part of the sampled sources (only its
test `proof_test.go` is), so the trie, forest, proof and codec definitions
below are modelled from the specification document; each such definition says
so in its doc comment.  The ChaCha20 PRG and the storage-fees migration are
embedded from the Go sources directly, with the external collaborators
(the ChaCha20 stream cipher of golang.org/x/crypto, the fvm register-size
function, the register-id parser) abstracted as parameters.
-/

namespace FlowGo

/-- Byte strings: the model of Go `[]byte`.  Each element stands for one byte. -/
abbrev Bytes := List Nat

/-! ## Sparse Merkle trie: default digests and the trie hash

Modelled from the spec: the mtrie package sources are absent from the sample,
only `proof_test.go` is present.  All definitions in this section follow
spec sections 3, 4.1 and 4.3. -/

/-- Modelled from the spec: the default digest ladder,
`default(0) = H("")`, `default(d) = H(default(d-1) || default(d-1))`
(spec section 4.1, `EmptyTrie`).  `hf` is the external hash primitive. -/
def defaultDigest (hf : Bytes → Bytes) : Nat → Bytes
  | 0 => hf []
  | d + 1 => hf (defaultDigest hf d ++ defaultDigest hf d)

/-- Byte encoding of one key bit. -/
def bitByte (b : Bool) : Nat := cond b 1 0

/-- Byte encoding of a key (one byte per bit, the model's rendering of the
fixed-width key bytes of the wire format). -/
def encKey (k : List Bool) : Bytes := k.map bitByte

/-- A located entry during trie recursion: remaining key bits to consume,
the full key, and the value. -/
abbrev LEntry := List Bool × List Bool × Bytes

/-- Modelled from the spec: route the entries whose next bit is `b` into the
corresponding child subtree (spec section 4.1, "recursive partition by
leading bit"). -/
def stepBit (b : Bool) (l : List LEntry) : List LEntry :=
  l.filterMap (fun e =>
    match e.1 with
    | [] => none
    | b' :: rest => if b' = b then some (rest, e.2.1, e.2.2) else none)

/-- Modelled from the spec: the digest of the subtree of height `d` holding
the located entries `l`.  A leaf digest is `H(key || value)`, an interior
digest is `H(leftDigest || rightDigest)`, an empty slot has the default
digest (spec sections 3 and 4.1). -/
def trieHash (hf : Bytes → Bytes) : Nat → List LEntry → Bytes
  | 0, [] => hf []
  | 0, e :: _ => hf (encKey e.2.1 ++ e.2.2)
  | d + 1, l => hf (trieHash hf d (stepBit false l) ++ trieHash hf d (stepBit true l))

/-- Modelled from the spec: a trie version is identified by its register
entries (key bits, value); the node structure is content-addressed from them
(spec section 3, `Trie`). -/
structure MTrie where
  entries : List (List Bool × Bytes)
  deriving DecidableEq, Repr

/-- Lift plain entries to located entries with all key bits still to consume. -/
def liftEntries (es : List (List Bool × Bytes)) : List LEntry :=
  es.map (fun e => (e.1, e.1, e.2))

/-- Modelled from the spec: `Trie.RootHash` for a trie of height `h`. -/
def MTrie.rootHash (hf : Bytes → Bytes) (h : Nat) (t : MTrie) : Bytes :=
  trieHash hf h (liftEntries t.entries)

/-- Modelled from the spec: `EmptyTrie` holds no registers. -/
def emptyTrie : MTrie := ⟨[]⟩

/-! ## Trie update -/

/-- Value of key `k` in an entry list, if present (first match). -/
def lookupKey (k : List Bool) : List (List Bool × Bytes) → Option Bytes
  | [] => none
  | e :: es => if e.1 = k then some e.2 else lookupKey k es

/-- Modelled from the spec: apply one write to the register entries.  Writing
the empty value is a tombstone that removes the leaf; writing to a present
key overwrites it in place; otherwise the leaf is added
(spec section 4.1, `Update`). -/
def applyWrite (k : List Bool) (v : Bytes) (es : List (List Bool × Bytes)) :
    List (List Bool × Bytes) :=
  if v = [] then es.filter (fun e => !(e.1 = k : Bool))
  else if es.any (fun e => e.1 = k) then
    es.map (fun e => if e.1 = k then (k, v) else e)
  else es ++ [(k, v)]

/-- Modelled from the spec: apply a batch of writes in order. -/
def applyWrites (ps : List (List Bool × Bytes)) (es : List (List Bool × Bytes)) :
    List (List Bool × Bytes) :=
  ps.foldl (fun acc p => applyWrite p.1 p.2 acc) es

/-- Modelled from the spec: trie-level `Update`: the new trie reflecting the
whole batch (validation lives at the Forest level, section 4.2). -/
def updateTrie (t : MTrie) (ps : List (List Bool × Bytes)) : MTrie :=
  ⟨applyWrites ps t.entries⟩

/-! ## Forest: cache, validation errors, LRU eviction

Modelled from the spec, sections 3 (`Forest`), 4.2 and 7.  The cache is a
list of (root digest, trie) pairs kept in recency order, most recently
used first; eviction truncates from the tail (the least recently used
entry). -/

/-- Modelled from the spec: the error taxonomy of the forest operations
(spec section 7). -/
inductive ForestError where
  | invalidKeyLength
  | duplicateKey
  | trieNotFound
  deriving DecidableEq, Repr

/-- Modelled from the spec: the forest with its construction-time trie depth
and cache capacity, and the recency-ordered cache. -/
structure MForest where
  height : Nat
  capacity : Nat
  cache : List (Bytes × MTrie)
  deriving DecidableEq, Repr

/-- Look a root digest up in the cache. -/
def cacheGet (root : Bytes) (c : List (Bytes × MTrie)) : Option MTrie :=
  (c.find? (fun e => e.1 = root)).map (fun e => e.2)

/-- Move the entry of an accessed root to the front of the recency order. -/
def cacheTouch (root : Bytes) (c : List (Bytes × MTrie)) : List (Bytes × MTrie) :=
  match c.find? (fun e => e.1 = root) with
  | none => c
  | some e => e :: c.filter (fun x => !(x.1 = root : Bool))

/-- Register a trie under its root at the front, evicting from the tail down
to the capacity bound. -/
def cacheInsert (cap : Nat) (root : Bytes) (t : MTrie) (c : List (Bytes × MTrie)) :
    List (Bytes × MTrie) :=
  ((root, t) :: c.filter (fun x => !(x.1 = root : Bool))).take cap

/-- Modelled from the spec: `Forest.GetTrie`; the empty trie is derivable
without a cache lookup, any other root is resolved through the cache, and
the access refreshes recency (spec sections 4.2 and 3). -/
def forestGetTrie (hf : Bytes → Bytes) (f : MForest) (root : Bytes) :
    Except ForestError MTrie × MForest :=
  if root = defaultDigest hf f.height then (Except.ok emptyTrie, f)
  else
    match cacheGet root f.cache with
    | some t => (Except.ok t, { f with cache := cacheTouch root f.cache })
    | none => (Except.error ForestError.trieNotFound, f)

/-- The batch contains some key twice with different values. -/
def hasDupDiff : List (List Bool × Bytes) → Bool
  | [] => false
  | p :: ps => ps.any (fun q => q.1 = p.1 && !(q.2 = p.2 : Bool)) || hasDupDiff ps

/-- Modelled from the spec: `Forest.Update`: validation first (key length,
then duplicate keys), then parent resolution, then the batched trie update,
registering the new root at the front of the cache (spec sections 4.2, 7). -/
def forestUpdate (hf : Bytes → Bytes) (f : MForest) (parentRoot : Bytes)
    (keys : List (List Bool)) (values : List Bytes) :
    Except ForestError Bytes × MForest :=
  if keys.any (fun k => !(k.length = f.height : Bool)) then
    (Except.error ForestError.invalidKeyLength, f)
  else if hasDupDiff (keys.zip values) then
    (Except.error ForestError.duplicateKey, f)
  else
    match forestGetTrie hf f parentRoot with
    | (Except.error e, f1) => (Except.error e, f1)
    | (Except.ok t, f1) =>
      let t1 := updateTrie t (keys.zip values)
      let r1 := MTrie.rootHash hf f.height t1
      (Except.ok r1, { f1 with cache := cacheInsert f.capacity r1 t1 f1.cache })

/-! ## Proof generation and verification

Modelled from the spec, sections 3 (`Proof`, `BatchProof`) and 4.3. -/

/-- Modelled from the spec: one key's membership evidence: the key, its value
(`none` marks non-membership), and the sibling digests from leaf to root,
with `none` flagging a sibling that is the canonical default digest
(spec section 3, `Proof`). -/
structure MProof where
  key : List Bool
  value : Option Bytes
  siblings : List (Option Bytes)
  deriving DecidableEq, Repr

/-- Modelled from the spec: an ordered sequence of proofs for a requested
key set (spec section 3, `BatchProof`). -/
structure BatchProof where
  proofs : List MProof
  deriving DecidableEq, Repr

/-- Modelled from the spec: walk from the root following the key's bits,
recording the digest of the sibling subtree not taken at each level, with the
default flag instead of the constant when that subtree is empty
(spec section 4.3, generation).  The result is in root-to-leaf order. -/
def genSibs (hf : Bytes → Bytes) : Nat → List LEntry → List Bool → List (Option Bytes)
  | 0, _, _ => []
  | _ + 1, _, [] => []
  | d + 1, l, b :: kr =>
    (if (stepBit (!b) l).isEmpty then none else some (trieHash hf d (stepBit (!b) l))) ::
      genSibs hf d (stepBit b l) kr

/-- Modelled from the spec: the digest the verifier starts from:
`H(key || value)` for a membership claim, the default leaf digest for a
non-membership claim (spec section 4.3, verification). -/
def leafDigestOf (hf : Bytes → Bytes) (k : List Bool) : Option Bytes → Bytes
  | some v => hf (encKey k ++ v)
  | none => defaultDigest hf 0

/-- Modelled from the spec: generate the proof of one key against the entry
set of a trie (spec section 4.3).  Siblings are stored leaf-to-root. -/
def genProof (hf : Bytes → Bytes) (h : Nat) (es : List (List Bool × Bytes))
    (k : List Bool) : MProof :=
  { key := k
    value := lookupKey k es
    siblings := (genSibs hf h (liftEntries es) k).reverse }

/-- Modelled from the spec: recompute the root bottom-up: combine the current
digest with each sibling (the default digest of the corresponding level when
flagged) in the order dictated by the key bit routing the node left or right
(spec section 4.3, verification).  Siblings are taken root-to-leaf here; the
defaulted sibling at height `d+1` is the default digest of height `d`. -/
def computeRoot (hf : Bytes → Bytes) :
    List Bool → List (Option Bytes) → Nat → Bytes → Bytes
  | [], _, _, leafD => leafD
  | b :: kr, s :: ss, d + 1, leafD =>
    let child := computeRoot hf kr ss d leafD
    let sd := s.getD (defaultDigest hf d)
    hf (if b then sd ++ child else child ++ sd)
  | _ :: _, _, _, leafD => leafD

/-- Modelled from the spec: a proof is valid iff the recomputed digest equals
the claimed root (spec section 4.3). -/
def verify (hf : Bytes → Bytes) (h : Nat) (p : MProof) (root : Bytes) : Bool :=
  computeRoot hf p.key p.siblings.reverse h (leafDigestOf hf p.key p.value) = root

/-- Modelled from the spec: a batch proof is valid iff every contained proof
independently verifies against the same claimed root (spec section 4.3). -/
def verifyBatch (hf : Bytes → Bytes) (h : Nat) (bp : BatchProof) (root : Bytes) : Bool :=
  bp.proofs.all (fun p => verify hf h p root)

/-- Iterated routing of the located entries along a bit path. -/
def descend (l : List LEntry) : List Bool → List LEntry
  | [] => l
  | b :: p => descend (stepBit b l) p

/-- Modelled from the spec: `Forest.Proofs`: resolve the trie for the root,
then build one proof per requested key, in the caller's key order
(spec sections 4.2 and 4.3). -/
def forestProofs (hf : Bytes → Bytes) (f : MForest) (root : Bytes)
    (keys : List (List Bool)) : Except ForestError BatchProof × MForest :=
  match forestGetTrie hf f root with
  | (Except.error e, f1) => (Except.error e, f1)
  | (Except.ok t, f1) => (Except.ok ⟨keys.map (genProof hf f.height t.entries)⟩, f1)

/-! ## Forest operation sequences and the cache bound -/

/-- Modelled from the spec: the forest's public operations
(spec section 4.2). -/
inductive FOp where
  | get (root : Bytes)
  | upd (parentRoot : Bytes) (keys : List (List Bool)) (values : List Bytes)
  | prf (root : Bytes) (keys : List (List Bool))

/-- The forest state after one operation. -/
def applyOp (hf : Bytes → Bytes) (f : MForest) : FOp → MForest
  | FOp.get root => (forestGetTrie hf f root).2
  | FOp.upd parentRoot keys values => (forestUpdate hf f parentRoot keys values).2
  | FOp.prf root keys => (forestProofs hf f root keys).2

/-- The forest state after a sequence of operations. -/
def applyOps (hf : Bytes → Bytes) (f : MForest) (ops : List FOp) : MForest :=
  ops.foldl (applyOp hf) f

/-! ## Binary codec of batch proofs

Modelled from the spec, sections 4.4 and 6 (wire format): a version byte, a
count of proofs, then per proof the key (fixed width), a presence flag, the
value length-prefixed when present, a sibling count, the default-sibling
bitmap, and the non-default sibling digests in leaf-to-root order.  In this
model a "byte" is one list element; digests carry a fixed width `w` and keys
a fixed bit count `H`, both known to the decoder as configuration. -/

/-- Modelled from the spec: decode-time failures are structural
inconsistencies, reported as a value (spec section 7). -/
inductive ProofError where
  | corruptProof
  deriving DecidableEq, Repr

/-- Modelled from the spec: the format version byte. -/
def batchFormatVersion : Nat := 1

/-- Modelled from the spec: presence flag plus length-prefixed value bytes,
omitted when absent (spec section 6). -/
def encodeValue : Option Bytes → Bytes
  | none => [0]
  | some v => 1 :: v.length :: v

/-- Modelled from the spec: one proof's wire image (spec section 6). -/
def encodeProofB (p : MProof) : Bytes :=
  encKey p.key ++ encodeValue p.value ++
    p.siblings.length :: encKey (p.siblings.map Option.isNone) ++
    (p.siblings.filterMap id).flatten

/-- Modelled from the spec: `EncodeBatchProof` (spec sections 4.4 and 6). -/
def encodeBatchProofB (bp : BatchProof) : Bytes :=
  batchFormatVersion :: bp.proofs.length :: (bp.proofs.map encodeProofB).flatten

/-- Read `n` bits (bytes `0`/`1`); any other byte is a corrupt encoding. -/
def readBits : Nat → Bytes → Option (List Bool × Bytes)
  | 0, bs => some ([], bs)
  | _ + 1, [] => none
  | n + 1, 0 :: bs => (readBits n bs).map (fun r => (false :: r.1, r.2))
  | n + 1, 1 :: bs => (readBits n bs).map (fun r => (true :: r.1, r.2))
  | _ + 1, _ :: _ => none

/-- Read `n` raw bytes. -/
def readN : Nat → Bytes → Option (Bytes × Bytes)
  | 0, bs => some ([], bs)
  | _ + 1, [] => none
  | n + 1, x :: bs => (readN n bs).map (fun r => (x :: r.1, r.2))

/-- Read the presence flag and, when present, the length-prefixed value. -/
def readValue : Bytes → Option (Option Bytes × Bytes)
  | 0 :: bs => some (none, bs)
  | 1 :: len :: bs => (readN len bs).map (fun r => (some r.1, r.2))
  | _ => none

/-- Read the sibling digests dictated by the default bitmap: a flagged slot
is the default constant (not transmitted), an unflagged slot is `w` raw
digest bytes. -/
def readSibs (w : Nat) : List Bool → Bytes → Option (List (Option Bytes) × Bytes)
  | [], bs => some ([], bs)
  | true :: fl, bs => (readSibs w fl bs).map (fun r => (none :: r.1, r.2))
  | false :: fl, bs =>
    (readN w bs).bind (fun d =>
      (readSibs w fl d.2).map (fun r => (some d.1 :: r.1, r.2)))

/-- Parse one proof: key bits, value, sibling count, bitmap, digests. -/
def parseProofP (H w : Nat) (bs : Bytes) : Option (MProof × Bytes) :=
  (readBits H bs).bind (fun kr =>
    (readValue kr.2).bind (fun vr =>
      match vr.2 with
      | [] => none
      | sc :: r3 =>
        (readBits sc r3).bind (fun fr =>
          (readSibs w fr.1 fr.2).map (fun sr =>
            (⟨kr.1, vr.1, sr.1⟩, sr.2)))))

/-- Parse `n` consecutive proofs. -/
def parseProofList (H w : Nat) : Nat → Bytes → Option (List MProof × Bytes)
  | 0, bs => some ([], bs)
  | n + 1, bs =>
    (parseProofP H w bs).bind (fun pr =>
      (parseProofList H w n pr.2).map (fun rr => (pr.1 :: rr.1, rr.2)))

/-- Parse the batch header (version, count) and the proofs. -/
def parseBatch (H w : Nat) : Bytes → Option (BatchProof × Bytes)
  | v :: n :: rest =>
    if v = batchFormatVersion then
      (parseProofList H w n rest).map (fun r => (⟨r.1⟩, r.2))
    else none
  | _ => none

/-- Modelled from the spec: `DecodeBatchProof`: parse and require the whole
input to be consumed; every failure is a `CorruptProofError` value
(spec sections 4.4 and 7). -/
def decodeBatchProofB (H w : Nat) (bs : Bytes) : Except ProofError BatchProof :=
  match parseBatch H w bs with
  | some (bp, []) => Except.ok bp
  | _ => Except.error ProofError.corruptProof

/-- Structural well-formedness of a proof for width parameters `H`, `w`. -/
def wfProof (H w : Nat) (p : MProof) : Prop :=
  p.key.length = H ∧ ∀ s ∈ p.siblings, ∀ d, s = some d → d.length = w

/-- Structural well-formedness of a batch proof. -/
def wfBatch (H w : Nat) (bp : BatchProof) : Prop :=
  ∀ p ∈ bp.proofs, wfProof H w p

/-! ## ChaCha20-based PRG (src/crypto/random/chacha20.go)

The ChaCha20 stream cipher itself is an external collaborator
(golang.org/x/crypto/chacha20); it is abstracted as a keystream function
`ks seed customizer i` giving the `i`-th keystream byte, with the cipher
state embedded as the keystream position.  The cipher's internal 32-bit
block counter over 64-byte blocks caps reachable positions below `2^38`
(the library stops with a counter-overflow panic beyond); theorems carry
that reachability bound as a hypothesis. -/

/-- `chacha20.KeySize` (chacha20.go line 56). -/
def keySize : Nat := 32

/-- `chacha20.NonceSize` (chacha20.go line 57). -/
def nonceSize : Nat := 12

/-- `chachaCore` (chacha20.go lines 34-47): the cipher (keystream position),
the count of bytes produced so far, and the initial seed and customizer. -/
structure ChachaCore where
  seed : Bytes
  customizer : Bytes
  pos : Nat
  bytesCounter : Nat
  deriving DecidableEq, Repr

/-- `NewChacha20` (chacha20.go lines 72-105): reject a seed of length other
than 32 or a customizer of length other than 12, else start the cipher at
position zero with a zero byte counter. -/
def newChacha20 (seed customizer : Bytes) : Except String ChachaCore :=
  if seed.length ≠ keySize then
    Except.error "chacha20 seed length should be 32"
  else if customizer.length ≠ nonceSize then
    Except.error "new Rand streamID should be 12 bytes"
  else Except.ok ⟨seed, customizer, 0, 0⟩

/-- `chachaCore.Read` (chacha20.go lines 108-117): encrypt a zero buffer of
`n` bytes (producing the next `n` keystream bytes) and advance the byte
counter by `n`. -/
def chachaRead (ks : Bytes → Bytes → Nat → Nat) (c : ChachaCore) (n : Nat) :
    Bytes × ChachaCore :=
  ((List.range n).map (fun i => ks c.seed c.customizer (c.pos + i)),
    ⟨c.seed, c.customizer, c.pos + n, c.bytesCounter + n⟩)

/-- The PRG state after a sequence of reads of the given sizes. -/
def applyReads (ks : Bytes → Bytes → Nat → Nat) (c : ChachaCore)
    (reads : List Nat) : ChachaCore :=
  reads.foldl (fun st n => (chachaRead ks st n).2) c

/-- `binary.LittleEndian.PutUint64` over `k` bytes: little-endian byte
rendering. -/
def natToLE : Nat → Nat → Bytes
  | 0, _ => []
  | k + 1, x => x % 256 :: natToLE k (x / 256)

/-- `binary.LittleEndian.Uint64`: little-endian byte reading. -/
def leToNat : Bytes → Nat
  | [] => 0
  | b :: r => b + 256 * leToNat r

/-- `chachaPRG.State` (chacha20.go lines 122-129):
`seed || streamID || counter` with the counter in 8 little-endian bytes. -/
def chachaState (c : ChachaCore) : Bytes :=
  c.seed ++ c.customizer ++ natToLE 8 c.bytesCounter

/-- `Restore` (chacha20.go lines 132-173): reject inputs whose length is not
`32 + 12 + 8`; else rebuild the cipher, set its block counter to
`uint32(counter / 64)` (the source's 32-bit truncation) and discard
`counter % 64` keystream bytes, leaving the byte counter at `counter`. -/
def chachaRestore (bs : Bytes) : Except String ChachaCore :=
  if bs.length = keySize + nonceSize + 8 then
    let seed := bs.take keySize
    let streamID := (bs.drop keySize).take nonceSize
    let counter := leToNat (bs.drop (keySize + nonceSize))
    let blockCount := (counter / 64) % 2 ^ 32
    Except.ok ⟨seed, streamID, blockCount * 64 + counter % 64, counter⟩
  else Except.error "Rand state length should be of 52 bytes"

/-! ## Storage-fees migration
(src/cmd/util/ledger/migrations/storage-fees-migration.go)

The migration's external collaborators — `keyToRegisterId` (defined in the
package but outside the sampled sources), `fvm.RegisterSize`,
`flow.AddressLength`, the `state.KeyPart*` type tags and
`utils.Uint64ToBinary` — are abstracted as an environment record. -/

/-- `ledger.KeyPart`. -/
structure KeyPart where
  ptype : Nat
  value : Bytes
  deriving DecidableEq, Repr

/-- `ledger.Key`. -/
structure LKey where
  keyParts : List KeyPart
  deriving DecidableEq, Repr

/-- `ledger.Payload`. -/
structure LPayload where
  key : LKey
  value : Bytes
  deriving DecidableEq, Repr

/-- `flow.RegisterID`. -/
structure RegisterID where
  owner : Bytes
  controller : Bytes
  key : Bytes
  deriving DecidableEq, Repr

/-- The migration's external collaborators, abstracted. -/
structure MigrationEnv where
  keyToRegisterId : LKey → Except String RegisterID
  registerSize : Bytes → Bool → Bytes → Bytes → Nat
  addressLength : Nat
  keyPartOwner : Nat
  keyPartController : Nat
  keyPartKey : Nat
  uint64ToBinary : Nat → Bytes

/-- The byte rendering of the string `"storage_used"`. -/
def strStorageUsed : Bytes := [115, 116, 111, 114, 97, 103, 101, 95, 117, 115, 101, 100]

/-- `makeKey` (storage-fees-migration.go lines 40-56): three key parts —
owner, empty controller, key. -/
def makeKey (env : MigrationEnv) (owner : Bytes) (key : Bytes) : LKey :=
  ⟨[⟨env.keyPartOwner, owner⟩, ⟨env.keyPartController, []⟩, ⟨env.keyPartKey, key⟩]⟩

/-- `registerSize` (storage-fees-migration.go lines 74-79). -/
def registerSizeOf (env : MigrationEnv) (id : RegisterID) (p : LPayload) : Nat :=
  env.registerSize id.owner (decide (0 < id.controller.length)) id.key p.value

/-- The `used[owner]` update of `process` (lines 67-70): an absent owner
starts at zero, then the register size is added.  The Go map is embedded as
an association list in first-occurrence order (Go map iteration order is
unspecified). -/
def bump : List (Bytes × Nat) → Bytes → Nat → List (Bytes × Nat)
  | [], o, n => [(o, n)]
  | e :: rest, o, n =>
    if e.1 = o then (e.1, e.2 + n) :: rest else e :: bump rest o n

/-- `process` (storage-fees-migration.go lines 58-72): owners whose byte
length differs from the address length are skipped. -/
def processP (env : MigrationEnv) (p : LPayload) (used : List (Bytes × Nat)) :
    Except String (List (Bytes × Nat)) :=
  match env.keyToRegisterId p.key with
  | Except.error e => Except.error e
  | Except.ok id =>
    if id.owner.length ≠ env.addressLength then Except.ok used
    else Except.ok (bump used id.owner (registerSizeOf env id p))

/-- The first loop of `StorageFeesMigration` (lines 17-23), accumulating the
per-owner sizes; any failure aborts the migration. -/
def processAll (env : MigrationEnv) : List LPayload → List (Bytes × Nat) →
    Except String (List (Bytes × Nat))
  | [], used => Except.ok used
  | p :: ps, used =>
    match processP env p used with
    | Except.error e => Except.error e
    | Except.ok used2 => processAll env ps used2

/-- `StorageFeesMigration` (storage-fees-migration.go lines 13-38): the input
payloads are copied unchanged in order, then one `storage_used` payload is
appended per accumulated owner, its value the accumulated size plus the size
of the `storage_used` register itself. -/
def storageFeesMigration (env : MigrationEnv) (payload : List LPayload) :
    Except String (List LPayload) :=
  match processAll env payload [] with
  | Except.error e => Except.error e
  | Except.ok used =>
    Except.ok (payload ++ used.map (fun su =>
      ⟨makeKey env su.1 strStorageUsed,
        env.uint64ToBinary (su.2 +
          env.registerSize su.1 false strStorageUsed (List.replicate 8 0))⟩))

/-- The owners that `process` accounts: register id resolves and the owner's
byte length equals the address length. -/
def qualifyingOwners (env : MigrationEnv) (payload : List LPayload) : List Bytes :=
  payload.filterMap (fun p =>
    match env.keyToRegisterId p.key with
    | Except.error _ => none
    | Except.ok id =>
      if id.owner.length = env.addressLength then some id.owner else none)

/-- The owner key part of a ledger key (its first part). -/
def ownerOfKey (k : LKey) : Bytes :=
  match k.keyParts with
  | [] => []
  | kp :: _ => kp.value

/-- A concrete migration environment for the closed witness. -/
def envW : MigrationEnv :=
  ⟨fun k => Except.ok ⟨ownerOfKey k, [], []⟩,
    fun _ _ _ v => v.length, 1, 0, 1, 2, natToLE 8⟩

/-- A concrete payload list for the closed witness. -/
def payloadW : List LPayload := [⟨⟨[⟨0, [3]⟩]⟩, [9, 9]⟩]

/-! ## Theorems -/

/-- The empty located-entry list hashes to the default digest at every height. -/
theorem trieHash_nil (hf : Bytes → Bytes) : ∀ d, trieHash hf d [] = defaultDigest hf d := by
  intro d
  induction d with
  | zero => rfl
  | succ d ih =>
    show hf (trieHash hf d (stepBit false []) ++ trieHash hf d (stepBit true [])) = _
    simp only [stepBit, List.filterMap_nil] at *
    rw [ih]
    rfl

/-- C3: For every depth `H` (and every hash primitive), the root digest of
`EmptyTrie(H)` equals the recursively defined default digest `default(H)`,
where `default(0) = H("")` and `default(d) = H(default(d-1) || default(d-1))`;
the constant depends on nothing but `hf` and `H`. -/
theorem emptyTrie_rootHash_eq_defaultDigest (hf : Bytes → Bytes) (h : Nat) :
    MTrie.rootHash hf h emptyTrie = defaultDigest hf h := by
  show trieHash hf h (liftEntries []) = defaultDigest hf h
  simp only [liftEntries, List.map_nil]
  exact trieHash_nil hf h

/-- A write of the value already present at a key leaves the entries unchanged,
provided keys are unique and stored values are non-empty (both invariants of
forest-produced tries). -/
theorem applyWrite_present (k : List Bool) (v : Bytes)
    (es : List (List Bool × Bytes))
    (hnd : (es.map Prod.fst).Nodup) (hv : v ≠ [])
    (hlk : lookupKey k es = some v) :
    applyWrite k v es = es := by
  have hmap : es.map (fun e => if e.1 = k then (k, v) else e) = es := by
    induction es with
    | nil => rfl
    | cons e es ih =>
      simp only [List.map_cons, List.nodup_cons] at hnd
      by_cases h : e.1 = k
      · simp only [lookupKey, if_pos h] at hlk
        have he : e = (k, v) := by
          cases e with
          | mk k' v' =>
            cases h
            cases hlk
            rfl
        have hnotin : ∀ e' ∈ es, ¬(e'.1 = k) := by
          intro e' he' hc
          have h1 : e'.1 = e.1 := hc.trans h.symm
          exact hnd.1 (h1 ▸ List.mem_map_of_mem Prod.fst he')
        have hmapid : es.map (fun e' => if e'.1 = k then (k, v) else e') = es := by
          have := List.map_congr_left (l := es)
            (f := fun e' => if e'.1 = k then (k, v) else e') (g := id)
            (by
              intro e' he'
              simp [hnotin e' he'])
          rw [this, List.map_id]
        rw [List.map_cons, if_pos h, hmapid, ← he]
      · simp only [lookupKey, if_neg h] at hlk
        rw [List.map_cons, if_neg h, ih hnd.2 hlk]
  have hany : es.any (fun e => e.1 = k) = true := by
    clear hmap
    induction es with
    | nil => simp [lookupKey] at hlk
    | cons e es ih =>
      by_cases h : e.1 = k
      · simp [List.any_cons, h]
      · simp only [lookupKey, if_neg h] at hlk
        simp only [List.map_cons, List.nodup_cons] at hnd
        simp [List.any_cons, ih hnd.2 hlk]
  rw [applyWrite, if_neg hv, if_pos hany, hmap]

/-- C5: if key `k` already maps to value `v` in trie `T` (with the invariants
of forest-produced tries: pairwise-distinct keys and no tombstoned values
stored), then `Update(T, {k:v})` produces a trie whose root digest is
identical to `T`'s root digest, for every hash primitive and height. -/
theorem update_idempotent (hf : Bytes → Bytes) (h : Nat) (t : MTrie)
    (k : List Bool) (v : Bytes)
    (hnd : (t.entries.map Prod.fst).Nodup) (hv : v ≠ [])
    (hlk : lookupKey k t.entries = some v) :
    MTrie.rootHash hf h (updateTrie t [(k, v)]) = MTrie.rootHash hf h t := by
  have : updateTrie t [(k, v)] = t := by
    show MTrie.mk (applyWrites [(k, v)] t.entries) = t
    rw [applyWrites, List.foldl_cons, List.foldl_nil,
      applyWrite_present k v t.entries hnd hv hlk]
  rw [this]

/-- Closed witness for `update_idempotent` at a concrete trie. -/
theorem update_idempotent_witness :
    MTrie.rootHash (fun l => [l.length]) 2
        (updateTrie ⟨[([true, false], [7])]⟩ [([true, false], [7])]) =
      MTrie.rootHash (fun l => [l.length]) 2 ⟨[([true, false], [7])]⟩ :=
  update_idempotent (fun l => [l.length]) 2 ⟨[([true, false], [7])]⟩
    [true, false] [7] (by decide) (by decide) (by decide)

/-- `hasDupDiff` decides exactly the failure of the pairwise
"same key implies same value" property. -/
theorem hasDupDiff_iff (ps : List (List Bool × Bytes)) :
    hasDupDiff ps = true ↔ ¬ ps.Pairwise (fun p q => p.1 = q.1 → p.2 = q.2) := by
  induction ps with
  | nil => simp [hasDupDiff]
  | cons p ps ih =>
    rw [List.pairwise_cons]
    constructor
    · intro h hc
      rcases Bool.or_eq_true_iff.mp h with h1 | h2
      · rcases List.any_eq_true.mp h1 with ⟨q, hq, hqp⟩
        have h3 := Bool.and_eq_true_iff.mp hqp
        have hk : q.1 = p.1 := by
          have := h3.1
          simpa using this
        have hv : ¬ q.2 = p.2 := by
          have := h3.2
          simpa using this
        exact hv ((hc.1 q hq hk.symm).symm)
      · exact ih.mp h2 hc.2
    · intro hc
      by_contra h
      apply hc
      simp only [hasDupDiff, Bool.or_eq_true_iff] at h
      push_neg at h
      refine ⟨?_, ?_⟩
      · intro q hq hk
        by_contra hv
        apply h.1
        apply List.any_eq_true.mpr
        refine ⟨q, hq, ?_⟩
        rw [Bool.and_eq_true_iff]
        constructor
        · simpa using hk.symm
        · simpa using fun h' => hv h'.symm
      · exact of_not_not (fun hn => h.2 (ih.mpr hn))

/-- C4: a forest update whose batch holds a key of bit-length different from
the configured depth fails with `InvalidKeyLengthError`; a batch of
depth-conforming keys holding the same key twice with different values fails
with `DuplicateKeyError`; in either case the error is produced before any
node is constructed and the forest — its cache and the cache's size
included — is returned unchanged. -/
theorem forestUpdate_validation (hf : Bytes → Bytes) (f : MForest)
    (parentRoot : Bytes) (keys : List (List Bool)) (values : List Bytes) :
    ((∃ k ∈ keys, k.length ≠ f.height) →
      forestUpdate hf f parentRoot keys values =
        (Except.error ForestError.invalidKeyLength, f)) ∧
    ((∀ k ∈ keys, k.length = f.height) →
      ¬ (keys.zip values).Pairwise (fun p q => p.1 = q.1 → p.2 = q.2) →
      forestUpdate hf f parentRoot keys values =
        (Except.error ForestError.duplicateKey, f)) := by
  constructor
  · intro ⟨k, hk, hlen⟩
    have h1 : keys.any (fun k => !(k.length = f.height : Bool)) = true := by
      apply List.any_eq_true.mpr
      exact ⟨k, hk, by simpa using hlen⟩
    rw [forestUpdate, if_pos h1]
  · intro hlen hdup
    have h1 : keys.any (fun k => !(k.length = f.height : Bool)) = false := by
      apply Bool.eq_false_iff.mpr
      intro hc
      rcases List.any_eq_true.mp hc with ⟨k, hk, hkb⟩
      exact (by simpa using hkb : k.length ≠ f.height) (hlen k hk)
    have h2 : hasDupDiff (keys.zip values) = true := (hasDupDiff_iff _).mpr hdup
    rw [forestUpdate, if_neg (by simp [h1]), if_pos h2]

/-- Closed witness for `forestUpdate_validation`: a wrong-length key is
rejected with `InvalidKeyLengthError` leaving the forest untouched, and a
duplicated key with two values is rejected with `DuplicateKeyError`. -/
theorem forestUpdate_validation_witness :
    (forestUpdate (fun l => [l.length]) ⟨2, 5, []⟩ [0] [[true]] [[7]] =
      (Except.error ForestError.invalidKeyLength, ⟨2, 5, []⟩)) ∧
    (forestUpdate (fun l => [l.length]) ⟨2, 5, []⟩ [0]
        [[true, false], [true, false]] [[7], [8]] =
      (Except.error ForestError.duplicateKey, ⟨2, 5, []⟩)) :=
  ⟨(forestUpdate_validation (fun l => [l.length]) ⟨2, 5, []⟩ [0] [[true]] [[7]]).1
      ⟨[true], by decide, by decide⟩,
    (forestUpdate_validation (fun l => [l.length]) ⟨2, 5, []⟩ [0]
        [[true, false], [true, false]] [[7], [8]]).2
      (by decide) (by
        intro hc
        have := (List.pairwise_cons.mp hc).1 ([true, false], [8]) (by decide) rfl
        simp at this)⟩

/-- Recomputing along the generated siblings from the digest of the reached
bottom slot reconstructs the subtree digest, at every height. -/
theorem computeRoot_genSibs (hf : Bytes → Bytes) :
    ∀ (key : List Bool) (l : List LEntry),
      computeRoot hf key (genSibs hf key.length l key) key.length
          (trieHash hf 0 (descend l key)) =
        trieHash hf key.length l := by
  intro key
  induction key with
  | nil => intro l; rfl
  | cons b kr ih =>
    intro l
    show computeRoot hf (b :: kr)
        ((if (stepBit (!b) l).isEmpty then none
          else some (trieHash hf kr.length (stepBit (!b) l))) ::
          genSibs hf kr.length (stepBit b l) kr)
        (kr.length + 1) (trieHash hf 0 (descend (stepBit b l) kr)) = _
    rw [computeRoot]
    have hchild : computeRoot hf kr (genSibs hf kr.length (stepBit b l) kr)
        kr.length (trieHash hf 0 (descend (stepBit b l) kr)) =
        trieHash hf kr.length (stepBit b l) := ih (stepBit b l)
    have hsib : (if (stepBit (!b) l).isEmpty then none
          else some (trieHash hf kr.length (stepBit (!b) l))).getD
        (defaultDigest hf kr.length) = trieHash hf kr.length (stepBit (!b) l) := by
      by_cases h : (stepBit (!b) l).isEmpty
      · rw [if_pos h, Option.getD_none, List.isEmpty_iff.mp h, trieHash_nil]
      · rw [if_neg h, Option.getD_some]
    simp only [hchild, hsib]
    cases b with
    | false => rfl
    | true => rfl

/-- Routing one step, expressed as a filter over the head bit followed by
dropping that bit. -/
theorem stepBit_filter (b : Bool) (p' : List Bool) (l : List LEntry) :
    (stepBit b l).filter (fun e => e.1 = p') =
      (l.filter (fun e => e.1 = b :: p')).map (fun e => (e.1.tail, e.2.1, e.2.2)) := by
  induction l with
  | nil => rfl
  | cons e l ih =>
    rcases e with ⟨rem, k, v⟩
    cases rem with
    | nil =>
      simpa [stepBit, List.filterMap_cons, List.filter_cons] using ih
    | cons b' rest =>
      by_cases hb : b' = b
      · subst hb
        by_cases hr : rest = p'
        · subst hr
          simpa [stepBit, List.filterMap_cons, List.filter_cons] using ih
        · simpa [stepBit, List.filterMap_cons, List.filter_cons, hr] using ih
      · have hne : ¬ (b' :: rest = b :: p') := by
          intro hc
          exact hb (by injection hc)
        simpa [stepBit, List.filterMap_cons, List.filter_cons, hb, hne] using ih

/-- Descending along a full-length bit path selects exactly the entries whose
remaining bits equal that path, with all bits consumed. -/
theorem descend_filter :
    ∀ (p : List Bool) (l : List LEntry), (∀ e ∈ l, e.1.length = p.length) →
      descend l p =
        (l.filter (fun e => e.1 = p)).map (fun e => (([] : List Bool), e.2.1, e.2.2)) := by
  intro p
  induction p with
  | nil =>
    intro l hl
    induction l with
    | nil => rfl
    | cons e l ih =>
      have he : e.1 = [] := List.length_eq_zero.mp (hl e (List.mem_cons_self e l))
      have hrest := ih (fun e' he' => hl e' (List.mem_cons_of_mem e he'))
      simp only [descend] at hrest
      have he2 : ((([] : List Bool), e.2.1, e.2.2) : LEntry) = e := by
        rcases e with ⟨rem, k2, v2⟩
        simp only at he
        rw [he]
      show e :: l = _
      rw [List.filter_cons]
      have hd : (decide (e.1 = ([] : List Bool))) = true := by simpa using he
      rw [hd, if_pos rfl, List.map_cons, he2]
      exact congrArg (e :: ·) hrest
  | cons b p' ih =>
    intro l hl
    show descend (stepBit b l) p' = _
    have hlen : ∀ e ∈ stepBit b l, e.1.length = p'.length := by
      intro e he
      rcases List.mem_filterMap.mp he with ⟨e0, he0, hfe⟩
      rcases e0 with ⟨rem, k, v⟩
      cases rem with
      | nil => simp at hfe
      | cons b0 rest =>
        by_cases hb : b0 = b
        · simp only [hb, if_pos rfl] at hfe
          cases hfe
          have := hl ⟨b0 :: rest, k, v⟩ he0
          simpa using this
        · simp [stepBit, hb] at hfe
    rw [ih (stepBit b l) hlen, stepBit_filter b p' l, List.map_map]
    rfl

/-- If keys are pairwise distinct and `lookupKey` finds `v`, the key filter
selects exactly that one entry. -/
theorem filter_eq_of_lookup_some (k : List Bool) (v : Bytes)
    (es : List (List Bool × Bytes)) (hnd : (es.map Prod.fst).Nodup)
    (hlk : lookupKey k es = some v) :
    es.filter (fun e => e.1 = k) = [(k, v)] := by
  induction es with
  | nil => simp [lookupKey] at hlk
  | cons e es ih =>
    simp only [List.map_cons, List.nodup_cons] at hnd
    by_cases h : e.1 = k
    · simp only [lookupKey, if_pos h] at hlk
      have he : e = (k, v) := by
        rcases e with ⟨k', v'⟩
        cases h
        cases hlk
        rfl
      rw [List.filter_cons]
      have hd : (decide (e.1 = k)) = true := by simpa using h
      have hnone : es.filter (fun e => e.1 = k) = [] := by
        apply List.filter_eq_nil_iff.mpr
        intro e' he' hc
        have h1 : e'.1 = e.1 := by
          have := of_decide_eq_true hc
          rw [this, h]
        exact hnd.1 (h1 ▸ List.mem_map_of_mem Prod.fst he')
      rw [hd, if_pos rfl, hnone, he]
    · simp only [lookupKey, if_neg h] at hlk
      rw [List.filter_cons]
      have hd : (decide (e.1 = k)) = false := by simpa using h
      rw [hd, if_neg (by simp), ih hnd.2 hlk]

/-- If `lookupKey` finds nothing, the key filter selects nothing. -/
theorem filter_eq_of_lookup_none (k : List Bool) (es : List (List Bool × Bytes))
    (hlk : lookupKey k es = none) :
    es.filter (fun e => e.1 = k) = [] := by
  induction es with
  | nil => rfl
  | cons e es ih =>
    by_cases h : e.1 = k
    · simp [lookupKey, if_pos h] at hlk
    · simp only [lookupKey, if_neg h] at hlk
      rw [List.filter_cons]
      have hd : (decide (e.1 = k)) = false := by simpa using h
      rw [hd]
      exact ih hlk

/-- Filtering lifted entries on the remaining bits is lifting the filtered
entries. -/
theorem liftEntries_filter (k : List Bool) (es : List (List Bool × Bytes)) :
    (liftEntries es).filter (fun e => e.1 = k) =
      liftEntries (es.filter (fun e => e.1 = k)) := by
  induction es with
  | nil => rfl
  | cons e es ih =>
    show List.filter _ ((e.1, e.1, e.2) :: liftEntries es) = _
    rw [List.filter_cons, List.filter_cons]
    by_cases h : e.1 = k
    · have hd : (decide (e.1 = k)) = true := by simpa using h
      rw [hd, if_pos rfl, if_pos rfl, ih]
      rfl
    · have hd : (decide (e.1 = k)) = false := by simpa using h
      rw [hd, if_neg (by simp), if_neg (by simp), ih]

/-- C6: against a trie with depth-conforming, pairwise-distinct keys: the
proof generated for a key present with value `v` carries `v` and verifies to
`true` against the trie's root digest; the proof generated for an absent key
is a non-membership proof (no value) and also verifies; and verification is
exactly the bottom-up recomputation from `H(key || value)` (or the default
leaf digest for non-membership), accepting iff the final digest equals the
claimed root. -/
theorem proof_soundness (hf : Bytes → Bytes) (h : Nat) (es : List (List Bool × Bytes))
    (k : List Bool) (hwf : ∀ e ∈ es, e.1.length = h)
    (hnd : (es.map Prod.fst).Nodup) (hk : k.length = h) :
    (∀ v, lookupKey k es = some v →
      (genProof hf h es k).value = some v ∧
        verify hf h (genProof hf h es k) (MTrie.rootHash hf h ⟨es⟩) = true) ∧
    (lookupKey k es = none →
      (genProof hf h es k).value = none ∧
        verify hf h (genProof hf h es k) (MTrie.rootHash hf h ⟨es⟩) = true) ∧
    (∀ (p : MProof) (root : Bytes),
      verify hf h p root = true ↔
        computeRoot hf p.key p.siblings.reverse h (leafDigestOf hf p.key p.value) = root) := by
  subst hk
  have hwf2 : ∀ e ∈ liftEntries es, e.1.length = k.length := by
    intro e he
    rcases List.mem_map.mp he with ⟨e0, he0, rfl⟩
    exact hwf e0 he0
  have hdesc := descend_filter k (liftEntries es) hwf2
  rw [liftEntries_filter] at hdesc
  have hver : ∀ v?, lookupKey k es = v? →
      verify hf k.length (genProof hf k.length es k)
        (MTrie.rootHash hf k.length ⟨es⟩) = true := by
    intro v? hlk
    have hstart : trieHash hf 0 (descend (liftEntries es) k) =
        leafDigestOf hf k v? := by
      cases v? with
      | some v =>
        rw [hdesc, filter_eq_of_lookup_some k v es hnd hlk]
        rfl
      | none =>
        rw [hdesc, filter_eq_of_lookup_none k es hlk]
        rfl
    unfold verify
    rw [decide_eq_true_eq]
    show computeRoot hf k ((genSibs hf k.length (liftEntries es) k).reverse).reverse
        k.length (leafDigestOf hf k (lookupKey k es)) = MTrie.rootHash hf k.length ⟨es⟩
    rw [List.reverse_reverse, hlk, ← hstart]
    exact computeRoot_genSibs hf k (liftEntries es)
  refine ⟨?_, ?_, ?_⟩
  · intro v hlk
    exact ⟨hlk, hver (some v) hlk⟩
  · intro hlk
    exact ⟨hlk, hver none hlk⟩
  · intro p root
    unfold verify
    rw [decide_eq_true_eq]

/-- Closed witness for `proof_soundness`: a concrete membership proof and a
concrete non-membership proof both verify against the trie's root digest. -/
theorem proof_soundness_witness :
    (verify (fun l => [l.length]) 2
        (genProof (fun l => [l.length]) 2 [([true, false], [7])] [true, false])
        (MTrie.rootHash (fun l => [l.length]) 2 ⟨[([true, false], [7])]⟩) = true) ∧
    (verify (fun l => [l.length]) 2
        (genProof (fun l => [l.length]) 2 [([true, false], [7])] [false, true])
        (MTrie.rootHash (fun l => [l.length]) 2 ⟨[([true, false], [7])]⟩) = true) :=
  ⟨((proof_soundness (fun l => [l.length]) 2 [([true, false], [7])] [true, false]
      (by decide) (by decide) (by decide)).1 [7] (by decide)).2,
    ((proof_soundness (fun l => [l.length]) 2 [([true, false], [7])] [false, true]
      (by decide) (by decide) (by decide)).2.1 (by decide)).2⟩

/-- C7: a successful `Forest.Proofs` call produces exactly one proof per
requested key, with the proofs' keys being the requested keys in the
caller's order, and the produced batch proof is valid against a claimed root
iff every contained proof independently verifies against that same root. -/
theorem forestProofs_shape (hf : Bytes → Bytes) (f : MForest) (root : Bytes)
    (keys : List (List Bool)) (bp : BatchProof) (f1 : MForest)
    (hok : forestProofs hf f root keys = (Except.ok bp, f1)) :
    bp.proofs.length = keys.length ∧
    bp.proofs.map (fun p => p.key) = keys ∧
    ∀ root', verifyBatch hf f.height bp root' = true ↔
      ∀ p ∈ bp.proofs, verify hf f.height p root' = true := by
  have hbp : ∃ t : MTrie, bp = ⟨keys.map (genProof hf f.height t.entries)⟩ := by
    unfold forestProofs at hok
    rcases hget : forestGetTrie hf f root with ⟨r, f2⟩
    rw [hget] at hok
    cases r with
    | error e => simp at hok
    | ok t =>
      refine ⟨t, ?_⟩
      have := congrArg Prod.fst hok
      simp only at this
      cases this
      rfl
  rcases hbp with ⟨t, rfl⟩
  refine ⟨by simp, ?_, ?_⟩
  · show (keys.map (genProof hf f.height t.entries)).map (fun p => p.key) = keys
    rw [List.map_map]
    have : ((fun p => p.key) ∘ genProof hf f.height t.entries) = id := by
      funext k
      rfl
    rw [this, List.map_id]
  · intro root'
    unfold verifyBatch
    exact List.all_eq_true

/-- Closed witness for `forestProofs_shape` at a concrete forest whose root is
the canonical empty root. -/
theorem forestProofs_shape_witness :
    (⟨[genProof (fun l => [l.length]) 1 [] [true]]⟩ : BatchProof).proofs.length =
      [[true]].length :=
  (forestProofs_shape (fun l => [l.length]) ⟨1, 5, []⟩
    (defaultDigest (fun l => [l.length]) 1) [[true]]
    ⟨[genProof (fun l => [l.length]) 1 [] [true]]⟩ ⟨1, 5, []⟩ (by rfl)).1

/-- Filtering strictly shrinks a list containing an element the predicate
rejects. -/
theorem length_filter_lt {α : Type} (p : α → Bool) (l : List α) (x : α)
    (hx : x ∈ l) (hpx : p x = false) : (l.filter p).length < l.length := by
  induction l with
  | nil => cases hx
  | cons a l ih =>
    rw [List.filter_cons]
    rcases List.mem_cons.mp hx with rfl | hx2
    · rw [hpx, if_neg (by decide)]
      exact Nat.lt_succ_of_le (List.length_filter_le p l)
    · by_cases hpa : p a = true
      · rw [hpa, if_pos rfl, List.length_cons, List.length_cons]
        exact Nat.succ_lt_succ (ih hx2)
      · rw [Bool.eq_false_iff.mpr hpa, if_neg (by decide)]
        exact Nat.lt_trans (ih hx2) (Nat.lt_succ_self _)

/-- Refreshing recency never grows the cache. -/
theorem length_cacheTouch (root : Bytes) (c : List (Bytes × MTrie)) :
    (cacheTouch root c).length ≤ c.length := by
  unfold cacheTouch
  cases hfind : c.find? (fun e => e.1 = root) with
  | none => exact Nat.le_refl _
  | some e =>
    rw [List.length_cons]
    have he : e ∈ c := List.mem_of_find?_eq_some hfind
    have h0 := List.find?_some hfind
    have hpe : e.1 = root := by simpa using h0
    have : (c.filter (fun x => !(x.1 = root : Bool))).length < c.length := by
      apply length_filter_lt _ c e he
      simp [hpe]
    exact Nat.succ_le_of_lt this

/-- Registering a trie respects the capacity bound. -/
theorem length_cacheInsert (cap : Nat) (root : Bytes) (t : MTrie)
    (c : List (Bytes × MTrie)) : (cacheInsert cap root t c).length ≤ cap := by
  unfold cacheInsert
  exact Nat.le_trans (Nat.le_of_eq (List.length_take _ _)) (Nat.min_le_left _ _)

/-- `forestGetTrie` returns a forest with the same height and capacity and a
cache no larger than before. -/
theorem forestGetTrie_frame (hf : Bytes → Bytes) (f : MForest) (root : Bytes) :
    (forestGetTrie hf f root).2.height = f.height ∧
    (forestGetTrie hf f root).2.capacity = f.capacity ∧
    (forestGetTrie hf f root).2.cache.length ≤ f.cache.length := by
  unfold forestGetTrie
  by_cases h : root = defaultDigest hf f.height
  · rw [if_pos h]
    exact ⟨rfl, rfl, Nat.le_refl _⟩
  · rw [if_neg h]
    cases hget : cacheGet root f.cache with
    | none => exact ⟨rfl, rfl, Nat.le_refl _⟩
    | some t => exact ⟨rfl, rfl, length_cacheTouch root f.cache⟩

/-- The forest returned by `forestProofs` is the one `forestGetTrie` returns. -/
theorem forestProofs_snd (hf : Bytes → Bytes) (f : MForest) (root : Bytes)
    (keys : List (List Bool)) :
    (forestProofs hf f root keys).2 = (forestGetTrie hf f root).2 := by
  unfold forestProofs
  rcases h : forestGetTrie hf f root with ⟨r, f1⟩
  cases r with
  | error e => rfl
  | ok t => rfl

/-- The forest returned by `forestUpdate` is the input forest (validation
failure), the forest after the parent lookup (lookup failure), or that
forest with the new root registered (success). -/
theorem forestUpdate_snd (hf : Bytes → Bytes) (f : MForest) (parentRoot : Bytes)
    (keys : List (List Bool)) (values : List Bytes) :
    (forestUpdate hf f parentRoot keys values).2 = f ∨
    (forestUpdate hf f parentRoot keys values).2 = (forestGetTrie hf f parentRoot).2 ∨
    ∃ r t, (forestUpdate hf f parentRoot keys values).2 =
      { (forestGetTrie hf f parentRoot).2 with
          cache := cacheInsert f.capacity r t ((forestGetTrie hf f parentRoot).2).cache } := by
  unfold forestUpdate
  by_cases h1 : keys.any (fun k => !(k.length = f.height : Bool)) = true
  · rw [if_pos h1]
    exact Or.inl rfl
  · rw [if_neg h1]
    by_cases h2 : hasDupDiff (keys.zip values) = true
    · rw [if_pos h2]
      exact Or.inl rfl
    · rw [if_neg h2]
      rcases hget : forestGetTrie hf f parentRoot with ⟨r, f1⟩
      cases r with
      | error e => exact Or.inr (Or.inl rfl)
      | ok t =>
        refine Or.inr (Or.inr ⟨_, _, rfl⟩)

/-- One forest operation preserves height and capacity and keeps the cache
within the capacity bound. -/
theorem applyOp_frame (hf : Bytes → Bytes) (f : MForest) (op : FOp) :
    (applyOp hf f op).height = f.height ∧
    (applyOp hf f op).capacity = f.capacity ∧
    (f.cache.length ≤ f.capacity → (applyOp hf f op).cache.length ≤ f.capacity) := by
  cases op with
  | get root =>
    have h := forestGetTrie_frame hf f root
    exact ⟨h.1, h.2.1, fun hb => Nat.le_trans h.2.2 hb⟩
  | prf root keys =>
    have h := forestGetTrie_frame hf f root
    have hs := forestProofs_snd hf f root keys
    show ((forestProofs hf f root keys).2.height = f.height) ∧
      ((forestProofs hf f root keys).2.capacity = f.capacity) ∧
      (f.cache.length ≤ f.capacity →
        (forestProofs hf f root keys).2.cache.length ≤ f.capacity)
    rw [hs]
    exact ⟨h.1, h.2.1, fun hb => Nat.le_trans h.2.2 hb⟩
  | upd parentRoot keys values =>
    have h := forestGetTrie_frame hf f parentRoot
    show ((forestUpdate hf f parentRoot keys values).2.height = f.height) ∧
      ((forestUpdate hf f parentRoot keys values).2.capacity = f.capacity) ∧
      (f.cache.length ≤ f.capacity →
        (forestUpdate hf f parentRoot keys values).2.cache.length ≤ f.capacity)
    rcases forestUpdate_snd hf f parentRoot keys values with hs | hs | ⟨r, t, hs⟩
    · rw [hs]
      exact ⟨rfl, rfl, fun hb => hb⟩
    · rw [hs]
      exact ⟨h.1, h.2.1, fun hb => Nat.le_trans h.2.2 hb⟩
    · rw [hs]
      exact ⟨h.1, h.2.1, fun hb => length_cacheInsert _ _ _ _⟩

/-- C8: after any sequence of forest operations the height and capacity are
those fixed at construction and the in-memory cache holds at most
`capacity` trie versions; moreover a successful update leaves the newly
created root at the front of the recency order (so the most recently created
version is resident and is the last candidate for eviction), and a
successful cache read of a non-empty root moves that root to the front of
the recency order (so the most recently accessed root is never evicted ahead
of a strictly less recently accessed one: eviction truncates from the back). -/
theorem forest_cache_bound (hf : Bytes → Bytes) (f : MForest) :
    (∀ ops : List FOp,
      (applyOps hf f ops).height = f.height ∧
      (applyOps hf f ops).capacity = f.capacity ∧
      (f.cache.length ≤ f.capacity →
        (applyOps hf f ops).cache.length ≤ f.capacity)) ∧
    (∀ parentRoot keys values r f1, 1 ≤ f.capacity →
      forestUpdate hf f parentRoot keys values = (Except.ok r, f1) →
      f1.cache.head?.map (fun e => e.1) = some r) ∧
    (∀ root t f1, forestGetTrie hf f root = (Except.ok t, f1) →
      ¬ root = defaultDigest hf f.height →
      f1.cache.head?.map (fun e => e.1) = some root) := by
  refine ⟨?_, ?_, ?_⟩
  · intro ops
    induction ops generalizing f with
    | nil => exact ⟨rfl, rfl, fun hb => hb⟩
    | cons op ops ih =>
      have h1 := applyOp_frame hf f op
      have h2 := ih (applyOp hf f op)
      show ((applyOps hf (applyOp hf f op) ops).height = f.height) ∧
        ((applyOps hf (applyOp hf f op) ops).capacity = f.capacity) ∧
        (f.cache.length ≤ f.capacity →
          (applyOps hf (applyOp hf f op) ops).cache.length ≤ f.capacity)
      refine ⟨h2.1.trans h1.1, h2.2.1.trans h1.2.1, fun hb => ?_⟩
      have hlen : (applyOp hf f op).cache.length ≤ (applyOp hf f op).capacity := by
        rw [h1.2.1]
        exact h1.2.2 hb
      have h3 := h2.2.2 hlen
      rw [h1.2.1] at h3
      exact h3
  · intro parentRoot keys values r f1 hcap hok
    unfold forestUpdate at hok
    by_cases h1 : keys.any (fun k => !(k.length = f.height : Bool)) = true
    · rw [if_pos h1] at hok
      simp at hok
    · rw [if_neg h1] at hok
      by_cases h2 : hasDupDiff (keys.zip values) = true
      · rw [if_pos h2] at hok
        simp at hok
      · rw [if_neg h2] at hok
        rcases hget : forestGetTrie hf f parentRoot with ⟨res, f2⟩
        rw [hget] at hok
        cases res with
        | error e => simp at hok
        | ok t =>
          simp only [Except.ok.injEq, Prod.mk.injEq] at hok
          rcases hok with ⟨hr, hf1⟩
          subst hf1
          show (cacheInsert f.capacity _ _ f2.cache).head?.map _ = _
          unfold cacheInsert
          cases hc : f.capacity with
          | zero => omega
          | succ n =>
            rw [List.take_succ_cons]
            simp only [List.head?_cons]
            rw [hr]
            rfl
  · intro root t f1 hok hne
    unfold forestGetTrie at hok
    rw [if_neg hne] at hok
    cases hget : cacheGet root f.cache with
    | none =>
      rw [hget] at hok
      simp at hok
    | some t2 =>
      rw [hget] at hok
      simp only [Except.ok.injEq, Prod.mk.injEq] at hok
      rcases hok with ⟨ht, hf1⟩
      subst hf1
      show (cacheTouch root f.cache).head?.map _ = _
      unfold cacheTouch
      unfold cacheGet at hget
      cases hfind : f.cache.find? (fun e => e.1 = root) with
      | none =>
        rw [hfind] at hget
        simp at hget
      | some e =>
        have h0 := List.find?_some hfind
        have hpe : e.1 = root := by simpa using h0
        simp only [List.head?_cons]
        rw [show (Option.map (fun e => e.1) (some e)) = some e.1 from rfl, hpe]

/-- Closed witness for `forest_cache_bound`: a concrete operation sequence
respects the capacity bound. -/
theorem forest_cache_bound_witness :
    (applyOps (fun l => [l.length]) ⟨1, 2, []⟩
      [FOp.upd (defaultDigest (fun l => [l.length]) 1) [[true]] [[7]]]).cache.length ≤ 2 :=
  ((forest_cache_bound (fun l => [l.length]) ⟨1, 2, []⟩).1
    [FOp.upd (defaultDigest (fun l => [l.length]) 1) [[true]] [[7]]]).2.2 (by decide)

/-- Reading back an encoded key recovers it and leaves the rest. -/
theorem readBits_encKey (k : List Bool) (rest : Bytes) :
    readBits k.length (encKey k ++ rest) = some (k, rest) := by
  induction k with
  | nil => rfl
  | cons b k ih =>
    cases b with
    | false =>
      show (readBits k.length (encKey k ++ rest)).map (fun r => (false :: r.1, r.2)) =
        some (false :: k, rest)
      rw [ih]
      rfl
    | true =>
      show (readBits k.length (encKey k ++ rest)).map (fun r => (true :: r.1, r.2)) =
        some (true :: k, rest)
      rw [ih]
      rfl

/-- Reading back raw bytes recovers them and leaves the rest. -/
theorem readN_append (v : Bytes) (rest : Bytes) :
    readN v.length (v ++ rest) = some (v, rest) := by
  induction v with
  | nil => rfl
  | cons x v ih =>
    show (readN v.length (v ++ rest)).map (fun r => (x :: r.1, r.2)) = some (x :: v, rest)
    rw [ih]
    rfl

/-- Reading back an encoded value recovers it and leaves the rest. -/
theorem readValue_enc (v? : Option Bytes) (rest : Bytes) :
    readValue (encodeValue v? ++ rest) = some (v?, rest) := by
  cases v? with
  | none => rfl
  | some v =>
    show (readN v.length (v ++ rest)).map (fun r => (some r.1, r.2)) = some (some v, rest)
    rw [readN_append]
    rfl

/-- Reading back encoded siblings against their own bitmap recovers them. -/
theorem readSibs_enc (w : Nat) (sibs : List (Option Bytes)) (rest : Bytes)
    (hwf : ∀ s ∈ sibs, ∀ d, s = some d → d.length = w) :
    readSibs w (sibs.map Option.isNone) ((sibs.filterMap id).flatten ++ rest) =
      some (sibs, rest) := by
  induction sibs with
  | nil => rfl
  | cons s sibs ih =>
    have hrest : ∀ s' ∈ sibs, ∀ d, s' = some d → d.length = w :=
      fun s' hs' => hwf s' (List.mem_cons_of_mem s hs')
    cases s with
    | none =>
      show (readSibs w (sibs.map Option.isNone)
          ((sibs.filterMap id).flatten ++ rest)).map
            (fun r => (none :: r.1, r.2)) = some (none :: sibs, rest)
      rw [ih hrest]
      rfl
    | some d =>
      have hd : d.length = w := hwf (some d) (List.mem_cons_self _ _) d rfl
      show (readN w ((d ++ (sibs.filterMap id).flatten) ++ rest)).bind
          (fun dr => (readSibs w (sibs.map Option.isNone) dr.2).map
            (fun r => (some dr.1 :: r.1, r.2))) = some (some d :: sibs, rest)
      have h1 : readN w (d ++ ((sibs.filterMap id).flatten ++ rest)) =
          some (d, (sibs.filterMap id).flatten ++ rest) := by
        rw [← hd]
        exact readN_append d _
      rw [List.append_assoc, h1]
      show (readSibs w (sibs.map Option.isNone)
          ((sibs.filterMap id).flatten ++ rest)).map
            (fun r => (some d :: r.1, r.2)) = some (some d :: sibs, rest)
      rw [ih hrest]
      rfl

/-- Parsing an encoded well-formed proof recovers it and leaves the rest. -/
theorem parseProofP_enc (H w : Nat) (p : MProof) (rest : Bytes)
    (hwf : wfProof H w p) :
    parseProofP H w (encodeProofB p ++ rest) = some (p, rest) := by
  rcases hwf with ⟨hk, hsib⟩
  subst hk
  unfold parseProofP encodeProofB
  simp only [List.append_assoc, List.cons_append]
  rw [readBits_encKey]
  show (readValue (encodeValue p.value ++
      (p.siblings.length :: (encKey (p.siblings.map Option.isNone) ++
        ((p.siblings.filterMap id).flatten ++ rest))))).bind _ = _
  rw [readValue_enc]
  show (readBits p.siblings.length (encKey (p.siblings.map Option.isNone) ++
      ((p.siblings.filterMap id).flatten ++ rest))).bind _ = _
  rw [show p.siblings.length = (p.siblings.map Option.isNone).length from
    (List.length_map _ _).symm, readBits_encKey]
  show (readSibs w (p.siblings.map Option.isNone)
      ((p.siblings.filterMap id).flatten ++ rest)).map _ = _
  rw [readSibs_enc w p.siblings rest hsib]
  rfl

/-- Parsing the concatenated encodings of well-formed proofs recovers them. -/
theorem parseProofList_enc (H w : Nat) (ps : List MProof) (rest : Bytes)
    (hwf : ∀ p ∈ ps, wfProof H w p) :
    parseProofList H w ps.length ((ps.map encodeProofB).flatten ++ rest) =
      some (ps, rest) := by
  induction ps with
  | nil => rfl
  | cons p ps ih =>
    show (parseProofP H w ((encodeProofB p ++ (ps.map encodeProofB).flatten) ++ rest)).bind
        (fun pr => (parseProofList H w ps.length pr.2).map
          (fun rr => (pr.1 :: rr.1, rr.2))) = some (p :: ps, rest)
    rw [List.append_assoc,
      parseProofP_enc H w p _ (hwf p (List.mem_cons_self _ _))]
    show (parseProofList H w ps.length
        ((ps.map encodeProofB).flatten ++ rest)).map
          (fun rr => (p :: rr.1, rr.2)) = some (p :: ps, rest)
    rw [ih (fun q hq => hwf q (List.mem_cons_of_mem p hq))]
    rfl

/-- Parsing an encoded well-formed batch proof recovers it, whatever follows. -/
theorem parseBatch_enc (H w : Nat) (bp : BatchProof) (rest : Bytes)
    (hwf : wfBatch H w bp) :
    parseBatch H w (encodeBatchProofB bp ++ rest) = some (bp, rest) := by
  show (if batchFormatVersion = batchFormatVersion then
      (parseProofList H w bp.proofs.length
        ((bp.proofs.map encodeProofB).flatten ++ rest)).map
          (fun r => (⟨r.1⟩, r.2)) else none) = some (bp, rest)
  rw [if_pos rfl, parseProofList_enc H w bp.proofs rest hwf]
  rfl

/-- Every trie digest is an output of the hash primitive, so it carries the
primitive's output width. -/
theorem trieHash_length (hf : Bytes → Bytes) (w : Nat)
    (hw : ∀ x, (hf x).length = w) : ∀ (d : Nat) (l : List LEntry),
    (trieHash hf d l).length = w := by
  intro d l
  match d, l with
  | 0, [] => exact hw []
  | 0, e :: _ => exact hw _
  | d + 1, l => exact hw _

/-- Every transmitted sibling digest of a generated proof has the hash
primitive's output width. -/
theorem genSibs_wf (hf : Bytes → Bytes) (w : Nat) (hw : ∀ x, (hf x).length = w) :
    ∀ (k : List Bool) (d : Nat) (l : List LEntry),
      ∀ s ∈ genSibs hf d l k, ∀ dg, s = some dg → dg.length = w := by
  intro k
  induction k with
  | nil =>
    intro d l s hs
    cases d with
    | zero => cases hs
    | succ d => cases hs
  | cons b kr ih =>
    intro d l s hs dg hdg
    cases d with
    | zero => cases hs
    | succ d =>
      rcases List.mem_cons.mp hs with rfl | hs2
      · by_cases hemp : (stepBit (!b) l).isEmpty
        · rw [if_pos hemp] at hdg
          cases hdg
        · rw [if_neg hemp] at hdg
          cases hdg
          exact trieHash_length hf w hw d _
      · exact ih d (stepBit b l) s hs2 dg hdg

/-- Generated proofs are structurally well-formed for the requested key
length and the hash primitive's output width. -/
theorem genProof_wf (hf : Bytes → Bytes) (w : Nat) (hw : ∀ x, (hf x).length = w)
    (H : Nat) (es : List (List Bool × Bytes)) (k : List Bool)
    (hk : k.length = H) : wfProof H w (genProof hf H es k) := by
  refine ⟨hk, ?_⟩
  intro s hs dg hdg
  have hs2 : s ∈ genSibs hf H (liftEntries es) k := List.mem_reverse.mp hs
  exact genSibs_wf hf w hw k H (liftEntries es) s hs2 dg hdg

/-- A successful `forestProofs` call yields the per-key generated proofs for
the resolved trie. -/
theorem forestProofs_ok (hf : Bytes → Bytes) (f : MForest) (root : Bytes)
    (keys : List (List Bool)) (bp : BatchProof) (f1 : MForest)
    (hok : forestProofs hf f root keys = (Except.ok bp, f1)) :
    ∃ t : MTrie, bp = ⟨keys.map (genProof hf f.height t.entries)⟩ := by
  unfold forestProofs at hok
  rcases hget : forestGetTrie hf f root with ⟨r, f2⟩
  rw [hget] at hok
  cases r with
  | error e => simp at hok
  | ok t =>
    refine ⟨t, ?_⟩
    have := congrArg Prod.fst hok
    simp only at this
    cases this
    rfl

/-- Decoding the encoding of a structurally well-formed batch proof
reproduces it exactly. -/
theorem decode_encode (H w : Nat) (bp : BatchProof) (hwf : wfBatch H w bp) :
    decodeBatchProofB H w (encodeBatchProofB bp) = Except.ok bp := by
  have h := parseBatch_enc H w bp [] hwf
  rw [List.append_nil] at h
  unfold decodeBatchProofB
  rw [h]

/-- C1: for every batch proof produced by `Forest.Proofs` (hash outputs of
width `w`, requested keys of the configured depth), decoding the encoding
succeeds and returns a batch proof structurally equal to the original:
the same keys, values, sibling digests, default-sibling flags and order. -/
theorem batchProof_roundtrip (hf : Bytes → Bytes) (w : Nat) (f : MForest)
    (root : Bytes) (keys : List (List Bool)) (bp : BatchProof) (f1 : MForest)
    (hw : ∀ x, (hf x).length = w) (hkeys : ∀ k ∈ keys, k.length = f.height)
    (hok : forestProofs hf f root keys = (Except.ok bp, f1)) :
    decodeBatchProofB f.height w (encodeBatchProofB bp) = Except.ok bp := by
  rcases forestProofs_ok hf f root keys bp f1 hok with ⟨t, rfl⟩
  apply decode_encode
  intro p hp
  rcases List.mem_map.mp hp with ⟨k, hk, rfl⟩
  exact genProof_wf hf w hw f.height t.entries k (hkeys k hk)

/-- Closed witness for `batchProof_roundtrip` at a concrete forest holding
one register. -/
theorem batchProof_roundtrip_witness :
    decodeBatchProofB 1 1
        (encodeBatchProofB ⟨[genProof (fun l => [l.length % 256]) 1 [] [true]]⟩) =
      Except.ok ⟨[genProof (fun l => [l.length % 256]) 1 [] [true]]⟩ :=
  batchProof_roundtrip (fun l => [l.length % 256]) 1 ⟨1, 5, []⟩
    (defaultDigest (fun l => [l.length % 256]) 1) [[true]]
    ⟨[genProof (fun l => [l.length % 256]) 1 [] [true]]⟩ ⟨1, 5, []⟩
    (fun x => rfl) (by decide) (by rfl)

/-- A successful bit read consumed exactly the encoding of the bits it
returned. -/
theorem readBits_canon : ∀ (n : Nat) (bs : Bytes) (k : List Bool) (r : Bytes),
    readBits n bs = some (k, r) → bs = encKey k ++ r ∧ k.length = n := by
  intro n
  induction n with
  | zero =>
    intro bs k r h
    have h0 : readBits 0 bs = some ([], bs) := rfl
    rw [h0] at h
    simp only [Option.some.injEq, Prod.mk.injEq] at h
    rcases h with ⟨hk, hr⟩
    subst hk
    subst hr
    exact ⟨rfl, rfl⟩
  | succ n ih =>
    intro bs k r h
    match bs with
    | [] =>
      have h0 : readBits (n + 1) ([] : Bytes) = none := rfl
      rw [h0] at h
      cases h
    | 0 :: bs =>
      have h0 : readBits (n + 1) (0 :: bs) =
          (readBits n bs).map (fun pr => (false :: pr.1, pr.2)) := rfl
      rw [h0] at h
      cases h1 : readBits n bs with
      | none =>
        rw [h1] at h
        cases h
      | some pr =>
        rw [h1] at h
        simp only [Option.map_some', Option.some.injEq, Prod.mk.injEq] at h
        rcases h with ⟨hk, hr⟩
        subst hk
        subst hr
        rcases ih bs pr.1 pr.2 h1 with ⟨hbs, hlen⟩
        refine ⟨?_, ?_⟩
        · rw [hbs]
          rfl
        · simp [hlen]
    | 1 :: bs =>
      have h0 : readBits (n + 1) (1 :: bs) =
          (readBits n bs).map (fun pr => (true :: pr.1, pr.2)) := rfl
      rw [h0] at h
      cases h1 : readBits n bs with
      | none =>
        rw [h1] at h
        cases h
      | some pr =>
        rw [h1] at h
        simp only [Option.map_some', Option.some.injEq, Prod.mk.injEq] at h
        rcases h with ⟨hk, hr⟩
        subst hk
        subst hr
        rcases ih bs pr.1 pr.2 h1 with ⟨hbs, hlen⟩
        refine ⟨?_, ?_⟩
        · rw [hbs]
          rfl
        · simp [hlen]
    | (m + 2) :: bs =>
      have h0 : readBits (n + 1) ((m + 2) :: bs) = none := rfl
      rw [h0] at h
      cases h

/-- A successful raw read consumed exactly the bytes it returned. -/
theorem readN_canon : ∀ (n : Nat) (bs : Bytes) (v : Bytes) (r : Bytes),
    readN n bs = some (v, r) → bs = v ++ r ∧ v.length = n := by
  intro n
  induction n with
  | zero =>
    intro bs v r h
    have h0 : readN 0 bs = some ([], bs) := rfl
    rw [h0] at h
    simp only [Option.some.injEq, Prod.mk.injEq] at h
    rcases h with ⟨hv, hr⟩
    subst hv
    subst hr
    exact ⟨rfl, rfl⟩
  | succ n ih =>
    intro bs v r h
    match bs with
    | [] =>
      have h0 : readN (n + 1) ([] : Bytes) = none := rfl
      rw [h0] at h
      cases h
    | x :: bs =>
      have h0 : readN (n + 1) (x :: bs) =
          (readN n bs).map (fun pr => (x :: pr.1, pr.2)) := rfl
      rw [h0] at h
      cases h1 : readN n bs with
      | none =>
        rw [h1] at h
        cases h
      | some pr =>
        rw [h1] at h
        simp only [Option.map_some', Option.some.injEq, Prod.mk.injEq] at h
        rcases h with ⟨hv, hr⟩
        subst hv
        subst hr
        rcases ih bs pr.1 pr.2 h1 with ⟨hbs, hlen⟩
        refine ⟨?_, ?_⟩
        · rw [hbs]
          rfl
        · simp [hlen]

/-- A successful value read consumed exactly the value's encoding. -/
theorem readValue_canon (bs : Bytes) (v? : Option Bytes) (r : Bytes)
    (h : readValue bs = some (v?, r)) : bs = encodeValue v? ++ r := by
  match bs with
  | [] => cases h
  | 0 :: bs =>
    have h0 : readValue (0 :: bs) = some (none, bs) := rfl
    rw [h0] at h
    simp only [Option.some.injEq, Prod.mk.injEq] at h
    rcases h with ⟨hv, hr⟩
    subst hv
    subst hr
    rfl
  | 1 :: [] => cases h
  | 1 :: len :: bs =>
    have h0 : readValue (1 :: len :: bs) =
        (readN len bs).map (fun pr => (some pr.1, pr.2)) := rfl
    rw [h0] at h
    cases h1 : readN len bs with
    | none =>
      rw [h1] at h
      cases h
    | some pr =>
      rw [h1] at h
      simp only [Option.map_some', Option.some.injEq, Prod.mk.injEq] at h
      rcases h with ⟨hv, hr⟩
      subst hv
      subst hr
      rcases readN_canon len bs pr.1 pr.2 h1 with ⟨hbs, hlen⟩
      rw [hbs, ← hlen]
      rfl
  | (m + 2) :: bs => cases h

/-- A successful sibling read consumed exactly the siblings' encoding, with
the bitmap matching the default flags and the digests carrying width `w`. -/
theorem readSibs_canon (w : Nat) : ∀ (fl : List Bool) (bs : Bytes)
    (sibs : List (Option Bytes)) (r : Bytes),
    readSibs w fl bs = some (sibs, r) →
    bs = (sibs.filterMap id).flatten ++ r ∧ sibs.map Option.isNone = fl ∧
      ∀ s ∈ sibs, ∀ d, s = some d → d.length = w := by
  intro fl
  induction fl with
  | nil =>
    intro bs sibs r h
    have h0 : readSibs w [] bs = some ([], bs) := rfl
    rw [h0] at h
    simp only [Option.some.injEq, Prod.mk.injEq] at h
    rcases h with ⟨hs, hr⟩
    subst hs
    subst hr
    exact ⟨rfl, rfl, fun s hs => absurd hs (List.not_mem_nil s)⟩
  | cons flag fl ih =>
    intro bs sibs r h
    cases flag with
    | true =>
      have h0 : readSibs w (true :: fl) bs =
          (readSibs w fl bs).map (fun rr => (none :: rr.1, rr.2)) := rfl
      rw [h0] at h
      cases h1 : readSibs w fl bs with
      | none =>
        rw [h1] at h
        cases h
      | some rr =>
        rw [h1] at h
        simp only [Option.map_some', Option.some.injEq, Prod.mk.injEq] at h
        rcases h with ⟨hs, hr⟩
        subst hs
        subst hr
        rcases ih bs rr.1 rr.2 h1 with ⟨hbs, hfl, hwf⟩
        refine ⟨by rw [hbs]; rfl, by rw [← hfl]; rfl, ?_⟩
        intro s hs d hd
        rcases List.mem_cons.mp hs with rfl | hs2
        · cases hd
        · exact hwf s hs2 d hd
    | false =>
      have h0 : readSibs w (false :: fl) bs =
          (readN w bs).bind (fun dr =>
            (readSibs w fl dr.2).map (fun rr => (some dr.1 :: rr.1, rr.2))) := rfl
      rw [h0] at h
      cases h1 : readN w bs with
      | none =>
        rw [h1] at h
        cases h
      | some dr =>
        rw [h1, Option.some_bind'] at h
        cases h2 : readSibs w fl dr.2 with
        | none =>
          rw [h2] at h
          cases h
        | some rr =>
          rw [h2] at h
          simp only [Option.map_some', Option.some.injEq, Prod.mk.injEq] at h
          rcases h with ⟨hs, hr⟩
          subst hs
          subst hr
          rcases readN_canon w bs dr.1 dr.2 h1 with ⟨hbs, hlen⟩
          rcases ih dr.2 rr.1 rr.2 h2 with ⟨hbs2, hfl, hwf⟩
          refine ⟨?_, by rw [← hfl]; rfl, ?_⟩
          · rw [hbs, hbs2]
            show dr.1 ++ ((rr.1.filterMap id).flatten ++ rr.2) =
              (dr.1 ++ (rr.1.filterMap id).flatten) ++ rr.2
            rw [List.append_assoc]
          · intro s hs d hd
            rcases List.mem_cons.mp hs with rfl | hs2
            · cases hd
              exact hlen
            · exact hwf s hs2 d hd

/-- A successful proof parse consumed exactly the proof's encoding, and the
parsed proof is structurally well-formed. -/
theorem parseProofP_canon (H w : Nat) (bs : Bytes) (p : MProof) (r : Bytes)
    (h : parseProofP H w bs = some (p, r)) :
    bs = encodeProofB p ++ r ∧ wfProof H w p := by
  unfold parseProofP at h
  cases h1 : readBits H bs with
  | none =>
    rw [h1] at h
    cases h
  | some kr =>
    rw [h1, Option.some_bind'] at h
    cases h2 : readValue kr.2 with
    | none =>
      rw [h2] at h
      cases h
    | some vr =>
      rw [h2, Option.some_bind'] at h
      match h3 : vr.2 with
      | [] =>
        rw [h3] at h
        cases h
      | sc :: r3 =>
        rw [h3] at h
        replace h : (readBits sc r3).bind (fun fr =>
            (readSibs w fr.1 fr.2).map (fun sr =>
              (⟨kr.1, vr.1, sr.1⟩, sr.2))) = some (p, r) := h
        cases h4 : readBits sc r3 with
        | none =>
          rw [h4] at h
          cases h
        | some fr =>
          rw [h4, Option.some_bind'] at h
          cases h5 : readSibs w fr.1 fr.2 with
          | none =>
            rw [h5] at h
            cases h
          | some sr =>
            rw [h5] at h
            simp only [Option.map_some', Option.some.injEq, Prod.mk.injEq] at h
            rcases h with ⟨hp, hr⟩
            subst hp
            subst hr
            rcases readBits_canon H bs kr.1 kr.2 h1 with ⟨hbs, hklen⟩
            rcases readBits_canon sc r3 fr.1 fr.2 h4 with ⟨hr3, hflen⟩
            rcases readSibs_canon w fr.1 fr.2 sr.1 sr.2 h5 with ⟨hfr2, hbitmap, hwfs⟩
            have hv := readValue_canon kr.2 vr.1 vr.2 h2
            refine ⟨?_, hklen, hwfs⟩
            rw [hbs, hv, h3, hr3, hfr2]
            have hsc : sc = sr.1.length := by
              rw [← hflen, ← hbitmap]
              exact List.length_map _ _
            rw [← hbitmap, hsc]
            unfold encodeProofB
            simp only [List.append_assoc, List.cons_append]

/-- A successful proof-list parse consumed exactly the proofs' encodings. -/
theorem parseProofList_canon (H w : Nat) : ∀ (n : Nat) (bs : Bytes)
    (ps : List MProof) (r : Bytes),
    parseProofList H w n bs = some (ps, r) →
    bs = (ps.map encodeProofB).flatten ++ r ∧ ps.length = n ∧
      ∀ p ∈ ps, wfProof H w p := by
  intro n
  induction n with
  | zero =>
    intro bs ps r h
    have h0 : parseProofList H w 0 bs = some ([], bs) := rfl
    rw [h0] at h
    simp only [Option.some.injEq, Prod.mk.injEq] at h
    rcases h with ⟨hp, hr⟩
    subst hp
    subst hr
    exact ⟨rfl, rfl, fun p hp => absurd hp (List.not_mem_nil p)⟩
  | succ n ih =>
    intro bs ps r h
    have h0 : parseProofList H w (n + 1) bs =
        (parseProofP H w bs).bind (fun pr =>
          (parseProofList H w n pr.2).map (fun rr => (pr.1 :: rr.1, rr.2))) := rfl
    rw [h0] at h
    cases h1 : parseProofP H w bs with
    | none =>
      rw [h1] at h
      cases h
    | some pr =>
      rw [h1, Option.some_bind'] at h
      cases h2 : parseProofList H w n pr.2 with
      | none =>
        rw [h2] at h
        cases h
      | some rr =>
        rw [h2] at h
        simp only [Option.map_some', Option.some.injEq, Prod.mk.injEq] at h
        rcases h with ⟨hp, hr⟩
        subst hp
        subst hr
        rcases parseProofP_canon H w bs pr.1 pr.2 h1 with ⟨hbs, hwfp⟩
        rcases ih pr.2 rr.1 rr.2 h2 with ⟨hbs2, hlen, hwfs⟩
        refine ⟨?_, by simp [hlen], ?_⟩
        · rw [hbs, hbs2]
          show encodeProofB pr.1 ++ ((rr.1.map encodeProofB).flatten ++ rr.2) =
            (encodeProofB pr.1 ++ (rr.1.map encodeProofB).flatten) ++ rr.2
          rw [List.append_assoc]
        · intro p hp
          rcases List.mem_cons.mp hp with rfl | hp2
          · exact hwfp
          · exact hwfs p hp2

/-- A successful batch parse consumed exactly the batch's encoding. -/
theorem parseBatch_canon (H w : Nat) (bs : Bytes) (bp : BatchProof) (r : Bytes)
    (h : parseBatch H w bs = some (bp, r)) :
    bs = encodeBatchProofB bp ++ r ∧ wfBatch H w bp := by
  match bs with
  | [] => cases h
  | [v] => cases h
  | v :: n :: rest =>
    have h0 : parseBatch H w (v :: n :: rest) =
        (if v = batchFormatVersion then
          (parseProofList H w n rest).map (fun rr => (⟨rr.1⟩, rr.2))
        else none) := rfl
    rw [h0] at h
    by_cases hv : v = batchFormatVersion
    · rw [if_pos hv] at h
      cases h1 : parseProofList H w n rest with
      | none =>
        rw [h1] at h
        cases h
      | some rr =>
        rw [h1] at h
        simp only [Option.map_some', Option.some.injEq, Prod.mk.injEq] at h
        rcases h with ⟨hp, hr⟩
        subst hr
        rcases parseProofList_canon H w n rest rr.1 rr.2 h1 with ⟨hrest, hlen, hwfs⟩
        subst hv
        refine ⟨?_, ?_⟩
        · rw [hrest, ← hp]
          show batchFormatVersion :: n :: ((rr.1.map encodeProofB).flatten ++ rr.2) =
            (batchFormatVersion :: rr.1.length ::
              (rr.1.map encodeProofB).flatten) ++ rr.2
          rw [hlen]
          rfl
        · intro p hp2
          rw [← hp] at hp2
          exact hwfs p hp2
    · rw [if_neg hv] at h
      cases h

/-- Decoding succeeds only on the exact encoding of the decoded batch proof. -/
theorem decode_canon (H w : Nat) (bs : Bytes) (bp : BatchProof)
    (h : decodeBatchProofB H w bs = Except.ok bp) :
    bs = encodeBatchProofB bp ∧ wfBatch H w bp := by
  unfold decodeBatchProofB at h
  cases h1 : parseBatch H w bs with
  | none =>
    rw [h1] at h
    cases h
  | some pr =>
    rw [h1] at h
    rcases pr with ⟨bp2, r2⟩
    cases r2 with
    | nil =>
      replace h : Except.ok bp2 = Except.ok bp := h
      have h2 : bp2 = bp := by injection h
      rcases parseBatch_canon H w bs bp2 [] h1 with ⟨hbs, hwf⟩
      rw [List.append_nil] at hbs
      rw [← h2]
      exact ⟨hbs, hwf⟩
    | cons x r2 =>
      replace h : (Except.error ProofError.corruptProof : Except ProofError BatchProof) =
        Except.ok bp := h
      cases h

/-- C2: decoding is total as an error-returning function: every input yields
either a batch proof or a `CorruptProofError` value — never a crash, and
never a partial batch proof alongside an error (the result type makes the
two exclusive).  An unrecognized format version is rejected; decoding
succeeds only on the exact encoding of its result (so any length field
inconsistent with the remaining bytes is rejected); and every strict
truncation of a valid encoding is rejected with `CorruptProofError`. -/
theorem decode_total_corrupt (H w : Nat) :
    (∀ bs : Bytes, (∃ bp, decodeBatchProofB H w bs = Except.ok bp) ∨
      decodeBatchProofB H w bs = Except.error ProofError.corruptProof) ∧
    (∀ (v n : Nat) (rest : Bytes), v ≠ batchFormatVersion →
      decodeBatchProofB H w (v :: n :: rest) =
        Except.error ProofError.corruptProof) ∧
    (∀ bs bp, decodeBatchProofB H w bs = Except.ok bp →
      bs = encodeBatchProofB bp) ∧
    (∀ bp, wfBatch H w bp → ∀ k, k < (encodeBatchProofB bp).length →
      decodeBatchProofB H w ((encodeBatchProofB bp).take k) =
        Except.error ProofError.corruptProof) := by
  refine ⟨?_, ?_, ?_, ?_⟩
  · intro bs
    cases hd : decodeBatchProofB H w bs with
    | ok bp => exact Or.inl ⟨bp, rfl⟩
    | error e =>
      cases e
      exact Or.inr rfl
  · intro v n rest hv
    have h0 : parseBatch H w (v :: n :: rest) = none := by
      have h1 : parseBatch H w (v :: n :: rest) =
          (if v = batchFormatVersion then
            (parseProofList H w n rest).map (fun r => (⟨r.1⟩, r.2))
          else none) := rfl
      rw [h1, if_neg hv]
    unfold decodeBatchProofB
    rw [h0]
  · intro bs bp h
    exact (decode_canon H w bs bp h).1
  · intro bp hwf k hk
    cases hd : decodeBatchProofB H w ((encodeBatchProofB bp).take k) with
    | error e =>
      cases e
      rfl
    | ok bp2 =>
      exfalso
      rcases decode_canon H w _ bp2 hd with ⟨htake, hwf2⟩
      have hsplit : encodeBatchProofB bp =
          (encodeBatchProofB bp).take k ++ (encodeBatchProofB bp).drop k :=
        (List.take_append_drop k _).symm
      rw [htake] at hsplit
      have h1 := parseBatch_enc H w bp2 ((encodeBatchProofB bp).drop k) hwf2
      rw [← hsplit] at h1
      have h2 := parseBatch_enc H w bp [] hwf
      rw [List.append_nil] at h2
      rw [h2] at h1
      simp only [Option.some.injEq, Prod.mk.injEq] at h1
      have hdrop : (encodeBatchProofB bp).drop k = [] := h1.2.symm
      have hlen := congrArg List.length hdrop
      rw [List.length_drop] at hlen
      simp only [List.length_nil] at hlen
      omega

/-- Closed witness for `decode_total_corrupt`: a wrong version byte and a
truncated encoding are both rejected with the corrupt-proof error. -/
theorem decode_total_corrupt_witness :
    decodeBatchProofB 1 1 [0, 0] = Except.error ProofError.corruptProof ∧
    decodeBatchProofB 1 1
        ((encodeBatchProofB ⟨[⟨[true], none, [none]⟩]⟩).take 3) =
      Except.error ProofError.corruptProof :=
  ⟨(decode_total_corrupt 1 1).2.1 0 0 [] (by decide),
    (decode_total_corrupt 1 1).2.2.2 ⟨[⟨[true], none, [none]⟩]⟩
      (by
        intro p hp
        simp only [List.mem_singleton] at hp
        subst hp
        exact ⟨rfl, by
          intro s hs d hd
          simp only [List.mem_singleton] at hs
          subst hs
          cases hd⟩)
      3 (by decide)⟩

/-- `natToLE` always renders exactly `k` bytes. -/
theorem natToLE_length : ∀ (k x : Nat), (natToLE k x).length = k := by
  intro k
  induction k with
  | zero => intro x; rfl
  | succ k ih =>
    intro x
    show (natToLE k (x / 256)).length + 1 = k + 1
    rw [ih]

/-- Little-endian reading inverts little-endian rendering modulo the width. -/
theorem leToNat_natToLE : ∀ (k x : Nat), leToNat (natToLE k x) = x % 256 ^ k := by
  intro k
  induction k with
  | zero =>
    intro x
    show 0 = x % 1
    rw [Nat.mod_one]
  | succ k ih =>
    intro x
    show x % 256 + 256 * leToNat (natToLE k (x / 256)) = x % 256 ^ (k + 1)
    rw [ih, pow_succ', Nat.mod_mul]

/-- Taking the length of the left part of an append returns it. -/
theorem take_len_append {α : Type} (l1 l2 : List α) :
    (l1 ++ l2).take l1.length = l1 := by
  induction l1 with
  | nil => rfl
  | cons a l ih =>
    show ((a :: (l ++ l2)).take (l.length + 1)) = a :: l
    rw [List.take_succ_cons, ih]

/-- Dropping the length of the left part of an append leaves the right part. -/
theorem drop_len_append {α : Type} (l1 l2 : List α) :
    (l1 ++ l2).drop l1.length = l2 := by
  induction l1 with
  | nil => rfl
  | cons a l ih =>
    show ((a :: (l ++ l2)).drop (l.length + 1)) = l2
    rw [List.drop_succ_cons, ih]

/-- Reads preserve the seed and the customizer and keep the cipher position
equal to the byte counter. -/
theorem applyReads_inv (ks : Bytes → Bytes → Nat → Nat) :
    ∀ (reads : List Nat) (c : ChachaCore), c.pos = c.bytesCounter →
    (applyReads ks c reads).seed = c.seed ∧
    (applyReads ks c reads).customizer = c.customizer ∧
    (applyReads ks c reads).pos = (applyReads ks c reads).bytesCounter := by
  intro reads
  induction reads with
  | nil =>
    intro c hp
    exact ⟨rfl, rfl, hp⟩
  | cons n reads ih =>
    intro c hp
    have := ih ⟨c.seed, c.customizer, c.pos + n, c.bytesCounter + n⟩
      (by simp [hp])
    exact this

/-- C9: for every PRG built by `NewChacha20` and every sequence of reads
(whose total stays below the `2^38` bytes the external cipher's 32-bit
block counter can deliver), the state blob is
`seed || customizer || LE64(bytesCounter)`, `Restore` of it rebuilds
exactly the same PRG state — so the restored PRG produces the identical
subsequent output byte stream — and `Restore` rejects with an error every
input whose length differs from 52 bytes. -/
theorem chacha_state_restore (ks : Bytes → Bytes → Nat → Nat)
    (seed customizer : Bytes) (c0 : ChachaCore) (reads : List Nat)
    (h0 : newChacha20 seed customizer = Except.ok c0)
    (hc : (applyReads ks c0 reads).bytesCounter < 2 ^ 38) :
    (chachaState (applyReads ks c0 reads) =
      (applyReads ks c0 reads).seed ++ (applyReads ks c0 reads).customizer ++
        natToLE 8 (applyReads ks c0 reads).bytesCounter) ∧
    (chachaRestore (chachaState (applyReads ks c0 reads)) =
      Except.ok (applyReads ks c0 reads)) ∧
    (∀ c1, chachaRestore (chachaState (applyReads ks c0 reads)) = Except.ok c1 →
      ∀ n, (chachaRead ks c1 n).1 = (chachaRead ks (applyReads ks c0 reads) n).1) ∧
    (∀ bs : Bytes, bs.length ≠ keySize + nonceSize + 8 →
      chachaRestore bs = Except.error "Rand state length should be of 52 bytes") := by
  unfold newChacha20 at h0
  by_cases hs : seed.length ≠ keySize
  · rw [if_pos hs] at h0
    cases h0
  rw [if_neg hs] at h0
  by_cases hcu : customizer.length ≠ nonceSize
  · rw [if_pos hcu] at h0
    cases h0
  rw [if_neg hcu] at h0
  have hc0 : c0 = ⟨seed, customizer, 0, 0⟩ := by
    cases h0
    rfl
  have hseed : seed.length = keySize := of_not_not hs
  have hcust : customizer.length = nonceSize := of_not_not hcu
  subst hc0
  rcases applyReads_inv ks reads ⟨seed, customizer, 0, 0⟩ rfl with ⟨hS, hC, hP⟩
  simp only at hS hC
  have hrestore : chachaRestore (chachaState (applyReads ks ⟨seed, customizer, 0, 0⟩ reads)) =
      Except.ok (applyReads ks ⟨seed, customizer, 0, 0⟩ reads) := by
    set c := applyReads ks ⟨seed, customizer, 0, 0⟩ reads with hcdef
    have hSlen : c.seed.length = keySize := by
      rw [hS]
      exact hseed
    have hClen : c.customizer.length = nonceSize := by
      rw [hC]
      exact hcust
    have hlen : (chachaState c).length = keySize + nonceSize + 8 := by
      unfold chachaState
      rw [List.length_append, List.length_append, hSlen, hClen, natToLE_length]
    have htake1 : (chachaState c).take keySize = c.seed := by
      unfold chachaState
      rw [List.append_assoc, ← hSlen, take_len_append]
    have hdrop2 : (chachaState c).drop (keySize + nonceSize) = natToLE 8 c.bytesCounter := by
      unfold chachaState
      have h1 : (c.seed ++ c.customizer).length = keySize + nonceSize := by
        rw [List.length_append, hSlen, hClen]
      rw [← h1, drop_len_append]
    have htake2 : ((chachaState c).drop keySize).take nonceSize = c.customizer := by
      have hdrop1 : (chachaState c).drop keySize =
          c.customizer ++ natToLE 8 c.bytesCounter := by
        unfold chachaState
        rw [List.append_assoc, ← hSlen, drop_len_append]
      rw [hdrop1, ← hClen, take_len_append]
    unfold chachaRestore
    rw [if_pos hlen]
    show Except.ok ⟨(chachaState c).take keySize,
        ((chachaState c).drop keySize).take nonceSize,
        (leToNat ((chachaState c).drop (keySize + nonceSize)) / 64 % 2 ^ 32) * 64 +
          leToNat ((chachaState c).drop (keySize + nonceSize)) % 64,
        leToNat ((chachaState c).drop (keySize + nonceSize))⟩ = Except.ok c
    rw [htake1, htake2, hdrop2, leToNat_natToLE]
    have h256 : (256 : Nat) ^ 8 = 18446744073709551616 := by norm_num
    have h38 : (2 : Nat) ^ 38 = 274877906944 := by norm_num
    have h32 : (2 : Nat) ^ 32 = 4294967296 := by norm_num
    rw [h256, h32]
    have hcb : c.bytesCounter < 274877906944 := by
      rw [← h38]
      exact hc
    have hmod : c.bytesCounter % 18446744073709551616 = c.bytesCounter := by
      apply Nat.mod_eq_of_lt
      omega
    rw [hmod]
    have hdiv : c.bytesCounter / 64 % 4294967296 = c.bytesCounter / 64 := by
      apply Nat.mod_eq_of_lt
      omega
    rw [hdiv]
    have hpos : c.bytesCounter / 64 * 64 + c.bytesCounter % 64 = c.pos := by
      rw [hP]
      omega
    rw [hpos]
  refine ⟨rfl, hrestore, ?_, ?_⟩
  · intro c1 h1 n
    rw [hrestore] at h1
    cases h1
    rfl
  · intro bs hbs
    unfold chachaRestore
    rw [if_neg hbs]

/-- Closed witness for `chacha_state_restore`: a concrete PRG state after a
read survives a state/restore round trip. -/
theorem chacha_state_restore_witness :
    chachaRestore (chachaState (applyReads (fun _ _ i => i % 256)
        ⟨List.replicate 32 0, List.replicate 12 0, 0, 0⟩ [5])) =
      Except.ok (applyReads (fun _ _ i => i % 256)
        ⟨List.replicate 32 0, List.replicate 12 0, 0, 0⟩ [5]) :=
  (chacha_state_restore (fun _ _ i => i % 256) (List.replicate 32 0)
    (List.replicate 12 0) ⟨List.replicate 32 0, List.replicate 12 0, 0, 0⟩ [5]
    (by rfl) (by norm_num [applyReads, chachaRead])).2.1

/-- Bumping an owner adds exactly that owner to the accumulated key set and
preserves key uniqueness. -/
theorem bump_keys (o : Bytes) (n : Nat) : ∀ used : List (Bytes × Nat),
    (∀ x, x ∈ (bump used o n).map Prod.fst ↔ x ∈ used.map Prod.fst ∨ x = o) ∧
    ((used.map Prod.fst).Nodup → ((bump used o n).map Prod.fst).Nodup) := by
  intro used
  induction used with
  | nil =>
    constructor
    · intro x
      simp [bump]
    · intro h
      simp [bump]
  | cons e rest ih =>
    by_cases he : e.1 = o
    · have hb : bump (e :: rest) o n = (e.1, e.2 + n) :: rest := by
        show (if e.1 = o then (e.1, e.2 + n) :: rest else e :: bump rest o n) =
          (e.1, e.2 + n) :: rest
        rw [if_pos he]
      constructor
      · intro x
        rw [hb]
        simp only [List.map_cons, List.mem_cons]
        constructor
        · intro h
          exact Or.inl h
        · rintro (h | h)
          · exact h
          · left
            rw [h, ← he]
      · intro h
        rw [hb]
        simpa using h
    · have hb : bump (e :: rest) o n = e :: bump rest o n := by
        show (if e.1 = o then (e.1, e.2 + n) :: rest else e :: bump rest o n) =
          e :: bump rest o n
        rw [if_neg he]
      constructor
      · intro x
        rw [hb]
        simp only [List.map_cons, List.mem_cons]
        constructor
        · rintro (h | h)
          · exact Or.inl (Or.inl h)
          · rcases (ih.1 x).mp h with h2 | h2
            · exact Or.inl (Or.inr h2)
            · exact Or.inr h2
        · rintro ((h | h) | h)
          · exact Or.inl h
          · exact Or.inr ((ih.1 x).mpr (Or.inl h))
          · exact Or.inr ((ih.1 x).mpr (Or.inr h))
      · intro h
        rw [hb]
        simp only [List.map_cons, List.nodup_cons] at h ⊢
        refine ⟨?_, ih.2 h.2⟩
        intro hc
        rcases (ih.1 e.1).mp hc with h2 | h2
        · exact h.1 h2
        · exact he h2

/-- The accumulation loop collects exactly the qualifying owners (on top of
whatever the accumulator held) and keeps owner keys unique. -/
theorem processAll_keys (env : MigrationEnv) : ∀ (ps : List LPayload)
    (acc used : List (Bytes × Nat)),
    processAll env ps acc = Except.ok used →
    (∀ x, x ∈ used.map Prod.fst ↔
      x ∈ acc.map Prod.fst ∨ x ∈ qualifyingOwners env ps) ∧
    ((acc.map Prod.fst).Nodup → (used.map Prod.fst).Nodup) := by
  intro ps
  induction ps with
  | nil =>
    intro acc used h
    replace h : Except.ok acc = Except.ok used := h
    have h2 : acc = used := by injection h
    subst h2
    constructor
    · intro x
      simp [qualifyingOwners]
    · intro h2
      exact h2
  | cons p ps ih =>
    intro acc used h
    replace h : (match processP env p acc with
      | Except.error e => Except.error e
      | Except.ok used2 => processAll env ps used2) = Except.ok used := h
    cases hk : env.keyToRegisterId p.key with
    | error e =>
      have hp : processP env p acc = Except.error e := by
        unfold processP
        rw [hk]
      rw [hp] at h
      cases h
    | ok id =>
      by_cases hlen : id.owner.length = env.addressLength
      · have hp : processP env p acc =
            Except.ok (bump acc id.owner (registerSizeOf env id p)) := by
          unfold processP
          rw [hk]
          show (if id.owner.length ≠ env.addressLength then Except.ok acc
            else Except.ok (bump acc id.owner (registerSizeOf env id p))) = _
          rw [if_neg (not_not_intro hlen)]
        rw [hp] at h
        have hq : qualifyingOwners env (p :: ps) =
            id.owner :: qualifyingOwners env ps := by
          unfold qualifyingOwners
          rw [List.filterMap_cons]
          have hfp : (match env.keyToRegisterId p.key with
              | Except.error _ => none
              | Except.ok id => if id.owner.length = env.addressLength
                  then some id.owner else none) = some id.owner := by
            rw [hk]
            show (if id.owner.length = env.addressLength
              then some id.owner else none) = some id.owner
            rw [if_pos hlen]
          rw [hfp]
        rcases ih (bump acc id.owner (registerSizeOf env id p)) used h with ⟨hiff, hnd⟩
        rcases bump_keys id.owner (registerSizeOf env id p) acc with ⟨hbiff, hbnd⟩
        constructor
        · intro x
          rw [hiff x, hq]
          constructor
          · rintro (h2 | h2)
            · rcases (hbiff x).mp h2 with h3 | h3
              · exact Or.inl h3
              · exact Or.inr (List.mem_cons.mpr (Or.inl h3))
            · exact Or.inr (List.mem_cons.mpr (Or.inr h2))
          · rintro (h2 | h2)
            · exact Or.inl ((hbiff x).mpr (Or.inl h2))
            · rcases List.mem_cons.mp h2 with h3 | h3
              · exact Or.inl ((hbiff x).mpr (Or.inr h3))
              · exact Or.inr h3
        · intro hndacc
          exact hnd (hbnd hndacc)
      · have hp : processP env p acc = Except.ok acc := by
          unfold processP
          rw [hk]
          show (if id.owner.length ≠ env.addressLength then Except.ok acc
            else Except.ok (bump acc id.owner (registerSizeOf env id p))) = _
          rw [if_pos hlen]
        rw [hp] at h
        have hq : qualifyingOwners env (p :: ps) = qualifyingOwners env ps := by
          unfold qualifyingOwners
          rw [List.filterMap_cons]
          have hfp : (match env.keyToRegisterId p.key with
              | Except.error _ => none
              | Except.ok id => if id.owner.length = env.addressLength
                  then some id.owner else none) = none := by
            rw [hk]
            show (if id.owner.length = env.addressLength
              then some id.owner else none) = none
            rw [if_neg hlen]
          rw [hfp]
        rcases ih acc used h with ⟨hiff, hnd⟩
        constructor
        · intro x
          rw [hiff x, hq]
        · exact hnd

/-- Every qualifying owner has the configured address byte-length. -/
theorem qualifying_length (env : MigrationEnv) (ps : List LPayload) (o : Bytes)
    (ho : o ∈ qualifyingOwners env ps) : o.length = env.addressLength := by
  rcases List.mem_filterMap.mp ho with ⟨p, hp, hf⟩
  cases hk : env.keyToRegisterId p.key with
  | error e =>
    simp only [hk] at hf
    cases hf
  | ok id =>
    simp only [hk] at hf
    by_cases hlen : id.owner.length = env.addressLength
    · rw [if_pos hlen] at hf
      have h2 : id.owner = o := by injection hf
      rw [← h2]
      exact hlen
    · rw [if_neg hlen] at hf
      cases hf

/-- C10: a successful `StorageFeesMigration` returns a list whose first
`len(input)` entries are the input payloads unchanged and in their original
order; everything appended after them consists of exactly one
`storage_used` payload per distinct qualifying owner (register id resolves
and the owner's byte length equals the flow address length): the appended
owners are pairwise distinct, they are exactly the qualifying owners, and
each appended payload's key is `makeKey owner "storage_used"`. -/
theorem storageFees_frame (env : MigrationEnv) (ps res : List LPayload)
    (h : storageFeesMigration env ps = Except.ok res) :
    res.take ps.length = ps ∧
    ((res.drop ps.length).map (fun q => ownerOfKey q.key)).Nodup ∧
    (∀ o, o ∈ (res.drop ps.length).map (fun q => ownerOfKey q.key) ↔
      o ∈ qualifyingOwners env ps) ∧
    (∀ q ∈ res.drop ps.length,
      q.key = makeKey env (ownerOfKey q.key) strStorageUsed ∧
      (ownerOfKey q.key).length = env.addressLength) := by
  unfold storageFeesMigration at h
  cases hpa : processAll env ps [] with
  | error e =>
    rw [hpa] at h
    cases h
  | ok used =>
    rw [hpa] at h
    have hres : res = ps ++ used.map (fun su =>
        (⟨makeKey env su.1 strStorageUsed,
          env.uint64ToBinary (su.2 + env.registerSize su.1 false strStorageUsed
            (List.replicate 8 0))⟩ : LPayload)) := by
      have h2 : (ps ++ used.map (fun su =>
          (⟨makeKey env su.1 strStorageUsed,
            env.uint64ToBinary (su.2 + env.registerSize su.1 false strStorageUsed
              (List.replicate 8 0))⟩ : LPayload))) = res := by injection h
      exact h2.symm
    subst hres
    rcases processAll_keys env ps [] used hpa with ⟨hiff, hnd⟩
    have hmapowner : (used.map (fun su =>
        (⟨makeKey env su.1 strStorageUsed,
          env.uint64ToBinary (su.2 + env.registerSize su.1 false strStorageUsed
            (List.replicate 8 0))⟩ : LPayload))).map (fun q => ownerOfKey q.key) =
        used.map Prod.fst := by
      rw [List.map_map]
      rfl
    refine ⟨take_len_append ps _, ?_, ?_, ?_⟩
    · rw [drop_len_append, hmapowner]
      exact hnd List.nodup_nil
    · intro o
      rw [drop_len_append, hmapowner, hiff o]
      simp
    · intro q hq
      rw [drop_len_append] at hq
      rcases List.mem_map.mp hq with ⟨su, hsu, rfl⟩
      refine ⟨rfl, ?_⟩
      have h1 : su.1 ∈ used.map Prod.fst := List.mem_map_of_mem Prod.fst hsu
      rcases (hiff su.1).mp h1 with h2 | h2
      · simp at h2
      · exact qualifying_length env ps su.1 h2

/-- Closed witness for `storageFees_frame`: on a concrete run the input
payloads form the unchanged prefix of the migration result. -/
theorem storageFees_frame_witness :
    (payloadW ++ [(⟨makeKey envW [3] strStorageUsed, natToLE 8 10⟩ : LPayload)]).take
        payloadW.length = payloadW :=
  (storageFees_frame envW payloadW
    (payloadW ++ [⟨makeKey envW [3] strStorageUsed, natToLE 8 10⟩])
    (by rfl)).1

end FlowGo
